import Mathlib

/-!
# Verification of `literate-to-md.js`

A shallow embedding of the literate-source-to-Markdown converter.  The
converter (`literateToMdFile` in the source) rewrites one file's text in four
steps, each built from a regular expression over the escaped `open`/`close`
delimiter strings of the file extension's configuration:

1. `^(\r?\n)*OPEN(\r?\n)+` — if the text starts (after blank lines) with the
   open delimiter followed by a line break, strip that prefix; otherwise
   prepend an opening code fence ``` + language tag + EOL.
2. `(\r?\n)+CLOSE(\r?\n)*$` — if the text ends (before blank lines) with the
   close delimiter preceded by a line break, strip from there to the end;
   otherwise append EOL + closing fence.
3. globally replace `(\r?\n)+CLOSE(\r?\n)+` by EOL EOL ``` tag EOL.
4. globally replace `(\r?\n)+OPEN(\r?\n)+` by EOL ``` EOL EOL.

The delimiters are escaped (`escape` in the source) so the regexes match them
verbatim; the embedding therefore models delimiter matching as literal
list-of-characters matching, and the `escape`/literal correspondence itself is
proved separately (`litInterp_escape`).

Text is modelled as `List Char`.  `os.EOL` is modelled as the POSIX value
`"\n"` (the build in this repository runs the converter on POSIX platforms;
the `\r?\n` patterns still accept both input line-ending variants, which is
proved below).  JavaScript regex semantics for the four patterns above are
modelled exactly: `\r?\n` matches `"\r\n"` if present else `"\n"`;
`(\r?\n)+`/`(\r?\n)*` are greedy with backtracking over the repetition count;
`String.prototype.replace` with a global regex scans left to right, replacing
non-overlapping leftmost matches and continuing after each match.
-/

namespace LiterateToMd

/-- One `\r?\n` token of the regexes: consumes `"\r\n"` if the text starts
with it, else a bare `"\n"`, returning the rest; `none` when the text does not
start with a line break. -/
def nlTok : List Char → Option (List Char)
  | '\r' :: '\n' :: r => some r
  | '\n' :: r => some r
  | _ => none

/-- All suffixes reachable by consuming one or more `\r?\n` tokens from the
front, in order of increasing token count.  These are exactly the
backtracking states of a leading `(\r?\n)+` / `(\r?\n)*` group. -/
def nlRunSuffixes : List Char → List (List Char)
  | '\r' :: '\n' :: r => r :: nlRunSuffixes r
  | '\n' :: r => r :: nlRunSuffixes r
  | _ => []

/-- Consume the maximal run of `\r?\n` tokens (a trailing greedy
`(\r?\n)+`/`(\r?\n)*` with nothing after it in the pattern). -/
def nlRunEnd : List Char → List Char
  | '\r' :: '\n' :: r => nlRunEnd r
  | '\n' :: r => nlRunEnd r
  | s => s

/-- The text is entirely a (possibly empty) run of `\r?\n` tokens; used for
the `(\r?\n)*$` tail of the end-of-file regex, and to describe newline runs. -/
def isNlRun : List Char → Bool
  | [] => true
  | '\r' :: '\n' :: r => isNlRun r
  | '\n' :: r => isNlRun r
  | _ => false

/-- Match of the interior pattern `(\r?\n)+D(\r?\n)+` anchored at the head of
`s`: a greedy, backtracking leading newline group, the literal delimiter `d`,
then a greedy trailing newline group.  Returns the rest of the text after the
match, or `none`. -/
def matchMid (d : List Char) (s : List Char) : Option (List Char) :=
  (nlRunSuffixes s).reverse.findSome? fun s1 =>
    if d.isPrefixOf s1 then
      let s2 := s1.drop d.length
      if (nlTok s2).isSome then some (nlRunEnd s2) else none
    else none

/-- Match of the anchored pattern `^(\r?\n)*D(\r?\n)+`: like `matchMid` but
the leading newline group may be empty.  Returns the text after the matched
prefix (the result of replacing the match by the empty string), or `none`. -/
def matchStart (d : List Char) (s : List Char) : Option (List Char) :=
  (s :: nlRunSuffixes s).reverse.findSome? fun s1 =>
    if d.isPrefixOf s1 then
      let s2 := s1.drop d.length
      if (nlTok s2).isSome then some (nlRunEnd s2) else none
    else none

/-- Does `(\r?\n)+D(\r?\n)*$` match starting exactly at the head of `s`
(where `s` is a suffix of the whole text, so `$` means `s` runs to the end)? -/
def endMatchHere (d : List Char) (s : List Char) : Bool :=
  (nlRunSuffixes s).any fun s1 =>
    d.isPrefixOf s1 && isNlRun (s1.drop d.length)

/-- First (leftmost) match of `(\r?\n)+D(\r?\n)*$`, replaced by the empty
string: returns the prefix of the text before the match, or `none` when the
regex does not match anywhere. -/
def stripEnd (d : List Char) : List Char → Option (List Char)
  | [] => none
  | c :: s =>
    if endMatchHere d (c :: s) then some []
    else match stripEnd d s with
      | some pre => some (c :: pre)
      | none => none

/-- Fuelled left-to-right global replace: at each position try the matcher;
on a match emit the replacement and continue after the matched span,
otherwise keep the character and move one position right.  This is the
semantics of `String.prototype.replace` with a global regex whose matches are
never empty (all our matchers consume at least one character).  The fuel only
serves termination; `fuel = s.length` always suffices. -/
def replAllF (m : List Char → Option (List Char)) (r : List Char) :
    Nat → List Char → List Char
  | _, [] => []
  | 0, s => s
  | fuel + 1, c :: s =>
    match m (c :: s) with
    | some rest => r ++ replAllF m r fuel rest
    | none => c :: replAllF m r fuel s

/-- Global replace with exactly enough fuel. -/
def replAll (m : List Char → Option (List Char)) (r : List Char)
    (s : List Char) : List Char :=
  replAllF m r s.length s

/-- The platform end of line (`os.EOL`), modelled as the POSIX `"\n"`. -/
def eol : List Char := "\n".toList

/-- A Markdown fence marker. -/
def fence : List Char := "```".toList

/-- Per-extension configuration entry `{open, close, lang?}` from
`literate-to-md.json`. -/
structure LangConfig where
  «open» : List Char
  close : List Char
  lang : Option (List Char)
deriving DecidableEq, Repr

/-- The effective fence language tag, `langConfig.lang || ext.substr(1)`:
JavaScript `||` falls through to the extension also when `lang` is present
but is the empty string. -/
def effLang (lc : LangConfig) (extKey : List Char) : List Char :=
  match lc.lang with
  | some l => if l = [] then extKey else l
  | none => extKey

/-- Leading-delimiter handling (lines 33–37 of the source): strip a leading
`(\r?\n)*OPEN(\r?\n)+`, or prepend an opening fence with the language tag. -/
def startStep (op tag s : List Char) : List Char :=
  match matchStart op s with
  | some rest => rest
  | none => fence ++ tag ++ eol ++ s

/-- Trailing-delimiter handling (lines 39–43 of the source): strip a trailing
`(\r?\n)+CLOSE(\r?\n)*$`, or append a closing fence. -/
def endStep (cl s : List Char) : List Char :=
  match stripEnd cl s with
  | some pre => pre
  | none => s ++ eol ++ fence

/-- Interior close-delimiter substitution (line 46 of the source): every
`(\r?\n)+CLOSE(\r?\n)+` becomes EOL EOL ``` tag EOL, with the replacement
string inserted literally.  `String.replace` actually applies
dollar-substitution to the replacement string, which can differ from literal
insertion only when the tag contains a dollar character; `closeSubstFull`
below models that in full and `closeSubstFull_eq` proves this literal form
exact for dollar-free tags. -/
def closeSubst (cl tag s : List Char) : List Char :=
  replAll (matchMid cl) (eol ++ eol ++ fence ++ tag ++ eol) s

/-- Interior open-delimiter substitution (line 47 of the source): every
`(\r?\n)+OPEN(\r?\n)+` becomes EOL ``` EOL EOL.  This replacement string
contains no dollar character, so `String.replace` inserts it literally and
this modelling is exact for every delimiter. -/
def openSubst (op s : List Char) : List Char :=
  replAll (matchMid op) (eol ++ fence ++ eol ++ eol) s

/-- The four rewriting steps of `literateToMdFile` (lines 33–47 of the
source) on the file contents, for already-fixed delimiter strings and
language tag.  Delimiters are matched verbatim (see `litInterp_escape` for
the correspondence with the source's `escape`). -/
def convertText (op cl tag : List Char) (s : List Char) : List Char :=
  openSubst op (closeSubst cl tag (endStep cl (startStep op tag s)))

/-- The text transformation of `literateToMdFile` for a configuration entry
and extension key (extension without the leading dot). -/
def literateConvert (lc : LangConfig) (extKey : List Char)
    (s : List Char) : List Char :=
  convertText lc.«open» lc.close (effLang lc extKey) s

/-! ## Dollar-substitution semantics of the close replacement

`String.prototype.replace` interprets the replacement string: `$$`, `$&`,
a dollar-backtick pair, `$'` and `$n`/`$nn` group references are substituted
per match (ECMAScript `GetSubstitution`).  Of the four replacement strings
in the source only line 46's `eol + eol + "```" + lang + eol` can contain a
dollar character (through `lang`); the other three are the empty string or
dollar-free constants, so their literal modelling above is already exact.
The definitions below model line 46 in full; `closeSubstFull_eq` proves the
literal `closeSubst` agrees with it exactly when the tag is dollar-free. -/

/-- The last `\r?\n` token of the maximal leading newline run of a text: the
value captured by a `(\r?\n)` group after its final repetition.  `none` when
the text does not start with a line break. -/
def lastNlTok : List Char → Option (List Char)
  | '\r' :: '\n' :: r =>
    match lastNlTok r with
    | some t => some t
    | none => some ['\r', '\n']
  | '\n' :: r =>
    match lastNlTok r with
    | some t => some t
    | none => some ['\n']
  | _ => none

/-- `matchMid` enriched with the capture groups of `(\r?\n)+D(\r?\n)+`: on
success returns `(g1, g2, res)` where `g1`/`g2` are the final repetitions of
the leading and trailing `(\r?\n)` groups and `res` is the text after the
match.  The search is the same longest-leading-run-first backtracking as
`matchMid` (`matchMidFull_proj`); the `getD` defaults are unreachable since
both runs of a successful match are nonempty. -/
def matchMidFull (d : List Char) (s : List Char) :
    Option (List Char × List Char × List Char) :=
  (nlRunSuffixes s).reverse.findSome? fun s1 =>
    if d.isPrefixOf s1 then
      let s2 := s1.drop d.length
      if (nlTok s2).isSome then
        some ((lastNlTok (s.take (s.length - s1.length))).getD [],
          (lastNlTok s2).getD [], nlRunEnd s2)
      else none
    else none

/-- One dollar escape of ECMAScript `GetSubstitution`, for a regex with
exactly two capture groups that both participate in the match (the two
`(\r?\n)` groups of the interior regexes).  Takes the template remainder
after a `$` and returns the inserted text and the template remainder after
the escape: `$$` inserts a dollar, `$&` the matched substring, a
dollar-backtick pair the portion of the subject string before the match,
`$'` the portion after it, and `$1`/`$01`, `$2`/`$02` the group values (a
two-digit reference is tried first, falling back to one digit); any other
dollar sequence is literal. -/
def getSubD (matched pre post g1 g2 : List Char) :
    List Char → List Char × List Char
  | [] => (['$'], [])
  | d :: rest2 =>
    if d = '$' then (['$'], rest2)
    else if d = '&' then (matched, rest2)
    else if d = '`' then (pre, rest2)
    else if d = '\'' then (post, rest2)
    else if d.isDigit then
      match rest2 with
      | d2 :: rest3 =>
        if d2.isDigit then
          if 10 * (d.toNat - 48) + (d2.toNat - 48) = 1 then (g1, rest3)
          else if 10 * (d.toNat - 48) + (d2.toNat - 48) = 2 then (g2, rest3)
          else if d.toNat - 48 = 1 then (g1, d2 :: rest3)
          else if d.toNat - 48 = 2 then (g2, d2 :: rest3)
          else (['$', d], d2 :: rest3)
        else
          if d.toNat - 48 = 1 then (g1, d2 :: rest3)
          else if d.toNat - 48 = 2 then (g2, d2 :: rest3)
          else (['$', d], d2 :: rest3)
      | [] =>
        if d.toNat - 48 = 1 then (g1, [])
        else if d.toNat - 48 = 2 then (g2, [])
        else (['$', d], [])
    else (['$'], d :: rest2)

/-- Fuelled ECMAScript `GetSubstitution` over a whole replacement template:
characters are copied verbatim, dollar escapes are expanded by `getSubD`.
Each step consumes at least one template character while spending one unit
of fuel (a dollar escape consumes the dollar and `getSubD` never grows the
remainder), so fuel equal to the template length always suffices. -/
def getSubF (matched pre post g1 g2 : List Char) :
    Nat → List Char → List Char
  | _, [] => []
  | 0, tpl => tpl
  | fuel + 1, c :: rest =>
    if c = '$' then
      (getSubD matched pre post g1 g2 rest).1
        ++ getSubF matched pre post g1 g2 fuel
          (getSubD matched pre post g1 g2 rest).2
    else c :: getSubF matched pre post g1 g2 fuel rest

/-- `GetSubstitution` with exactly enough fuel. -/
def getSub (matched pre post g1 g2 tpl : List Char) : List Char :=
  getSubF matched pre post g1 g2 tpl.length tpl

/-- Fuelled left-to-right global replace of `(\r?\n)+CLOSE(\r?\n)+` with the
dollar-substituted replacement string of line 46: the scan mirrors
`replAllF`, additionally carrying the already-scanned prefix of the subject
string so each replacement is expanded with its full match context. -/
def closeSubstFullF (cl tag : List Char) :
    Nat → List Char → List Char → List Char
  | _, _, [] => []
  | 0, _, s => s
  | fuel + 1, pre, c :: s =>
    match matchMidFull cl (c :: s) with
    | some (g1, g2, res) =>
      getSub ((c :: s).take ((c :: s).length - res.length)) pre res g1 g2
          (eol ++ eol ++ fence ++ tag ++ eol)
        ++ closeSubstFullF cl tag fuel
          (pre ++ (c :: s).take ((c :: s).length - res.length)) res
    | none => c :: closeSubstFullF cl tag fuel (pre ++ [c]) s

/-- Interior close-delimiter substitution (line 46 of the source) with the
full dollar-substitution semantics of `String.replace`.  For a dollar-free
tag this agrees with the literal `closeSubst` (`closeSubstFull_eq`). -/
def closeSubstFull (cl tag s : List Char) : List Char :=
  closeSubstFullF cl tag s.length [] s

/-- The four rewriting steps of `literateToMdFile` with the full
dollar-substitution semantics of the close-delimiter replacement; the other
three replacement strings are dollar-free, so their literal modelling is
exact as is. -/
def convertTextFull (op cl tag : List Char) (s : List Char) : List Char :=
  openSubst op (closeSubstFull cl tag (endStep cl (startStep op tag s)))

/-! ## The `escape` function and literal regex patterns -/

/-- The character class `[\\^$*+?.()|[\]{}]` of `escape` (line 56 of the
source): every character with syntactic significance in a JavaScript regular
expression outside a character class. -/
def specials : List Char :=
  ['\\', '^', '$', '*', '+', '?', '.', '(', ')', '|', '[', ']', '{', '}']

/-- `escape` (lines 54–57 of the source): prefix every regex-significant
character with a backslash (`"\\$&"` substitutes the matched character). -/
def escape : List Char → List Char
  | [] => []
  | c :: t => if c ∈ specials then '\\' :: c :: escape t else c :: escape t

/-- Interpretation of a regex pattern string as a pure literal: a backslash
followed by a regex-significant character denotes that character itself; an
ordinary character denotes itself; a bare regex-significant character (or a
backslash followed by anything else, or a trailing backslash) gives the
pattern a non-literal (or invalid) meaning, so the interpretation is `none`.
The list returned is the exact sequence of characters the pattern matches
verbatim. -/
def litInterp : List Char → Option (List Char)
  | [] => some []
  | '\\' :: c :: t => if c ∈ specials then (litInterp t).map (c :: ·) else none
  | c :: t => if c ∈ specials then none else (litInterp t).map (c :: ·)

/-! ## Output lines -/

/-- Split a text into its lines at `'\n'` (the separators are consumed; a
trailing newline yields a final empty line). -/
def linesOf (s : List Char) : List (List Char) :=
  s.foldr (fun c acc => if c = '\n' then [] :: acc
    else (c :: acc.headD []) :: acc.tail) [[]]

/-- An opening fence line carrying the language tag. -/
def openFenceLine (tag : List Char) : List Char := fence ++ tag

/-- A closing fence line. -/
def closeFenceLine : List Char := fence

/-- A line is a fence marker line (opening with the given tag, or closing). -/
def isFenceLine (tag l : List Char) : Bool :=
  l = openFenceLine tag ∨ l = closeFenceLine

/-- The subsequence of fence marker lines of a text. -/
def fenceLines (tag s : List Char) : List (List Char) :=
  (linesOf s).filter (isFenceLine tag)

/-! ## The tree walker and its filesystem effects

`literateToMd` (lines 11–17 of the source) recursively mirrors a directory
tree; `literateToMdFile` (lines 19–52) converts one file.  The filesystem is
modelled as a tree; directory listings are cons-spines (`dnil`/`dcons`).
Effects are collected in a list (the source launches sibling subtrees with
`Promise.all`; the list order is one serialization of those independent
per-file effect sequences, which touch disjoint files). -/

inductive FsTree where
  | file (contents : List Char) : FsTree
  | dnil : FsTree
  | dcons (name : String) (child : FsTree) (rest : FsTree) : FsTree
deriving DecidableEq, Repr

/-- One filesystem side effect of a run. -/
inductive Eff where
  | read (p : List String) : Eff
  | mkdir (p : List String) : Eff
  | write (p : List String) (contents : List Char) : Eff
  | log (src dst : List String) : Eff
deriving DecidableEq, Repr

/-- Split a file name (without its first character, handled by the caller)
at its last dot. -/
def lastDotSplit : List Char → Option (List Char × List Char)
  | [] => none
  | c :: r => match lastDotSplit r with
    | some (b, a) => some (c :: b, a)
    | none => if c = '.' then some ([], r) else none

/-- `path.parse` name/ext fields for a base name: the extension starts at
the last dot, except that a leading dot (dot-file) does not start an
extension. -/
def parseNameExt (s : String) : List Char × List Char :=
  match s.toList with
  | [] => ([], [])
  | c :: rest => match lastDotSplit rest with
    | some (b, a) => (c :: b, '.' :: a)
    | none => (c :: rest, [])

/-- `ext.substr(1)` (line 22 of the source): the extension without its
leading dot, the key into the configuration table. -/
def extKeyOf (s : String) : List Char := (parseNameExt s).2.drop 1

/-- `path.format({dir, name, ext: ".md"})` applied to a base name: the name
with its extension replaced by `.md` (line 26 of the source). -/
def mdName (s : String) : String := String.mk ((parseNameExt s).1 ++ ".md".toList)

/-- The effects of `literateToMdFile` (lines 19–52 of the source) on one
file: parse the output path, look up the configuration by extension; if
absent do nothing at all; otherwise create the output directory, read the
input, write the converted text to the output path with extension `.md`, and
log one progress line. -/
def literateToMdFile (config : List Char → Option LangConfig)
    (contents : List Char) (input output : List String) : List Eff :=
  let base := output.getLast?.getD ""
  match config (extKeyOf base) with
  | none => []
  | some lc =>
    let dir := output.dropLast
    let out := dir ++ [mdName base]
    [Eff.mkdir dir, Eff.read input,
     Eff.write out (literateConvert lc (extKeyOf base) contents),
     Eff.log input out]

/-- The recursive walker `literateToMd` (lines 11–17 of the source): a
directory maps each child name onto the same child name of the output path;
a file is dispatched to the converter. -/
def literateToMd (config : List Char → Option LangConfig) :
    FsTree → List String → List String → List Eff
  | .file c, input, output => literateToMdFile config c input output
  | .dnil, _, _ => []
  | .dcons n child rest, input, output =>
    literateToMd config child (input ++ [n]) (output ++ [n]) ++
      literateToMd config rest input output

/-- The input tree has a regular file at the given relative path (`[]` names
the tree's root itself).  In a cons-spine, the empty path delegates to the
tail so that the degenerate spine ending in a `file` (not producible by a
real `readdir` listing, but representable) is treated as the root being that
file, matching what the walker does with it. -/
def hasFile : FsTree → List String → Bool
  | .file _, [] => true
  | .file _, _ :: _ => false
  | .dnil, _ => false
  | .dcons _ _ rest, [] => hasFile rest []
  | .dcons n child rest, m :: p =>
    (n == m && hasFile child p) || hasFile rest (m :: p)

/-! ## The aggregate `Promise.all` failure semantics -/

/-- Models `Promise.all` over the settled results of the sibling conversions
(line 14 of the source): the aggregate settles to `ok` exactly when every
child does, and otherwise rejects with a single child's rejection reason (the
first in the list, standing in for the first in completion order); the other
children's errors are discarded, not collected. -/
def promiseAll (rs : List (Except String Unit)) : Except String Unit :=
  match rs.findSome? (fun r => match r with
    | .error e => some e
    | .ok _ => none) with
  | some e => .error e
  | none => .ok ()

/-- The errors that the aggregate run reports: the single rejection reason,
if any (the unhandled rejection of the top-level call at line 9 of the
source). -/
def reportedErrors (r : Except String Unit) : List String :=
  match r with
  | .error e => [e]
  | .ok _ => []

/-- The output shape asserted by the specification for delimiter-free input,
stated from the specification's words for comparison with the code: the
input wrapped in one fence pair, the opening fence carrying `config.lang`
whenever that field is present, else the extension. -/
def specWrapOfC3 (lc : LangConfig) (extKey : List Char) (s : List Char) :
    List Char :=
  fence ++ (match lc.lang with | some l => l | none => extKey)
    ++ eol ++ s ++ eol ++ fence

/-! ## Well-formed literate documents

The fence-balance invariant of the specification does not hold for arbitrary
inputs (the code performs no merging of adjacent code regions); it holds for
well-formed literate documents: an optional leading prose block, a first
code segment, alternating further prose/code segments, and an optional
trailing prose block, each segment delimited on lines of its own. -/

/-- The matcher fails at every position strictly inside `A` when `S`
follows: the global replace copies `A` verbatim. -/
def SkipOK (m : List Char → Option (List Char)) (A S : List Char) : Prop :=
  ∀ a, a ≠ [] → a.IsSuffix A → m (a ++ S) = none

/-- The replacement string of line 46 of the source, and — for a dollar-free
tag, the only case in which any theorem below uses it — the text inserted
verbatim for an interior close delimiter (`getSub_literal` and
`closeSubstFull_eq` justify the literal reading; `getSub` gives the general
dollar-substitution semantics). -/
def rClose (tag : List Char) : List Char := eol ++ eol ++ fence ++ tag ++ eol

/-- The replacement inserted for an interior open delimiter
(line 47 of the source). -/
def rOpen : List Char := eol ++ fence ++ eol ++ eol

/-- A segment is admissible: nonempty, avoiding the given characters
entirely, and neither starting nor ending with a line-break character. -/
def segOk (bad : List Char) (s : List Char) : Prop :=
  s ≠ [] ∧ (∀ c ∈ s, c ∉ bad) ∧
  (∀ c, s.head? = some c → c ≠ '\n' ∧ c ≠ '\r') ∧
  (∀ c, s.getLast? = some c → c ≠ '\n' ∧ c ≠ '\r')

/-- A delimiter is admissible: nonempty, containing no line-break character
and no backtick. -/
def delimOk (d : List Char) : Prop :=
  d ≠ [] ∧ ∀ c ∈ d, c ≠ '\n' ∧ c ≠ '\r' ∧ c ≠ '`'

/-- One interior prose block followed by its code segment, as literate
source: `"\n" open "\n" prose "\n" close "\n" code`. -/
def renderPair (op cl P C : List Char) : List Char :=
  '\n' :: (op ++ '\n' :: (P ++ '\n' :: (cl ++ '\n' :: C)))

/-- Interior prose/code alternation, as literate source. -/
def renderMid (op cl : List Char) : List (List Char × List Char) → List Char
  | [] => []
  | (P, C) :: rest => renderPair op cl P C ++ renderMid op cl rest

/-- A well-formed literate document: optional leading prose, first code
segment, interior alternation, optional trailing prose. -/
def renderDoc (op cl : List Char) (lead : Option (List Char)) (c1 : List Char)
    (mid : List (List Char × List Char)) (trail : Option (List Char)) :
    List Char :=
  (match lead with
   | some P0 => op ++ '\n' :: (P0 ++ '\n' :: (cl ++ ['\n']))
   | none => []) ++
  (c1 ++ renderMid op cl mid ++
    (match trail with
     | some Pt => '\n' :: (op ++ '\n' :: (Pt ++ '\n' :: cl))
     | none => []))

/-- The interior alternation after the close-substitution pass. -/
def closedMid (op tag : List Char) : List (List Char × List Char) → List Char
  | [] => []
  | (P, C) :: rest =>
    '\n' :: (op ++ '\n' :: (P ++ rClose tag ++ (C ++ closedMid op tag rest)))

/-- The interior alternation in the final Markdown. -/
def mdOfMid (tag : List Char) : List (List Char × List Char) → List Char
  | [] => []
  | (P, C) :: rest => rOpen ++ P ++ rClose tag ++ (C ++ mdOfMid tag rest)

/-- The final Markdown of a well-formed literate document: each code segment
wrapped in one opening fence carrying the tag and one closing fence, prose
in between, single blank lines at the boundaries. -/
def mdOfDoc (tag : List Char) (lead : Option (List Char)) (c1 : List Char)
    (mid : List (List Char × List Char)) (trail : Option (List Char)) :
    List Char :=
  (match lead with
   | some P0 => P0 ++ rClose tag
   | none => fence ++ tag ++ eol) ++
  (c1 ++ mdOfMid tag mid ++
    (match trail with
     | some Pt => rOpen ++ Pt
     | none => eol ++ fence))

/-! ## Basic lemmas about the matchers -/

/-- Exhaustive case analysis for the `\r?\n` token at the head of a text. -/
theorem nlCases (s : List Char) :
    (∃ r, s = '\r' :: '\n' :: r ∧ nlTok s = some r) ∨
    (∃ r, s = '\n' :: r ∧ nlTok s = some r) ∨
    nlTok s = none := by
  match s with
  | [] => right; right; rfl
  | c :: t =>
    by_cases h1 : c = '\n'
    · subst h1; right; left; exact ⟨t, rfl, rfl⟩
    by_cases h2 : c = '\r'
    · subst h2
      match t with
      | [] => right; right; rfl
      | c2 :: t2 =>
        by_cases h3 : c2 = '\n'
        · subst h3; left; exact ⟨t2, rfl, rfl⟩
        · right; right
          show nlTok ('\r' :: c2 :: t2) = none
          unfold nlTok
          split
          · next heq =>
              injection heq with _ heq2; injection heq2 with hc _
              exact absurd hc h3
          · next heq => injection heq with hc _; exact absurd hc (by decide)
          · rfl
    · right; right
      show nlTok (c :: t) = none
      unfold nlTok
      split
      · next heq => injection heq with hc _; exact absurd hc h2
      · next heq => injection heq with hc _; exact absurd hc h1
      · rfl

theorem nlTok_none_of_head {c : Char} {s : List Char}
    (h1 : c ≠ '\n') (h2 : c ≠ '\r') : nlTok (c :: s) = none := by
  rcases nlCases (c :: s) with ⟨r, heq, _⟩ | ⟨r, heq, _⟩ | h
  · injection heq with hc _; exact absurd hc h2
  · injection heq with hc _; exact absurd hc h1
  · exact h

theorem nlTok_length {s r : List Char} (h : nlTok s = some r) :
    r.length < s.length := by
  rcases nlCases s with ⟨r', heq, hr⟩ | ⟨r', heq, hr⟩ | hn
  · rw [hr] at h; cases h; subst heq; simp only [List.length_cons]; omega
  · rw [hr] at h; cases h; subst heq; simp only [List.length_cons]; omega
  · rw [hn] at h; cases h

/-- Unfolding equation for `nlRunSuffixes` in terms of `nlTok`. -/
theorem nlRunSuffixes_step (s : List Char) :
    nlRunSuffixes s = match nlTok s with
      | some r => r :: nlRunSuffixes r
      | none => [] := by
  rcases nlCases s with ⟨r, heq, hr⟩ | ⟨r, heq, hr⟩ | hn
  · subst heq; rfl
  · subst heq; rfl
  · rw [hn]
    unfold nlRunSuffixes
    split
    · exact absurd hn (by simp [nlTok])
    · exact absurd hn (by simp [nlTok])
    · rfl

/-- Unfolding equation for `nlRunEnd` in terms of `nlTok`. -/
theorem nlRunEnd_step (s : List Char) :
    nlRunEnd s = match nlTok s with
      | some r => nlRunEnd r
      | none => s := by
  rcases nlCases s with ⟨r, heq, hr⟩ | ⟨r, heq, hr⟩ | hn
  · subst heq; rfl
  · subst heq; rfl
  · rw [hn]
    unfold nlRunEnd
    split
    · exact absurd hn (by simp [nlTok])
    · exact absurd hn (by simp [nlTok])
    · rfl

/-- Unfolding equation for `isNlRun` in terms of `nlTok`. -/
theorem isNlRun_step (s : List Char) :
    isNlRun s = match nlTok s with
      | some r => isNlRun r
      | none => s.isEmpty := by
  rcases nlCases s with ⟨r, heq, hr⟩ | ⟨r, heq, hr⟩ | hn
  · subst heq; rfl
  · subst heq; rfl
  · rw [hn]
    cases s with
    | nil => rfl
    | cons c t =>
      unfold isNlRun
      split
      · rename_i heq; exact absurd heq (by simp)
      · rename_i heq; rw [heq] at hn; exact absurd hn (by simp [nlTok])
      · rename_i heq; rw [heq] at hn; exact absurd hn (by simp [nlTok])
      · rfl

theorem nlRunEnd_eq_self {s : List Char} (h : nlTok s = none) :
    nlRunEnd s = s := by
  rw [nlRunEnd_step, h]

theorem nlRunSuffixes_eq_nil {s : List Char} (h : nlTok s = none) :
    nlRunSuffixes s = [] := by
  rw [nlRunSuffixes_step, h]

/-- Induction along the `\r?\n` token structure of a text. -/
theorem nlInduction (P : List Char → Prop)
    (h1 : ∀ s, nlTok s = none → P s)
    (h2 : ∀ r, P r → P ('\r' :: '\n' :: r))
    (h3 : ∀ r, P r → P ('\n' :: r)) : ∀ s, P s := by
  have key : ∀ n (s : List Char), s.length ≤ n → P s := by
    intro n
    induction n with
    | zero =>
      intro s hs
      have : s = [] := List.eq_nil_of_length_eq_zero (Nat.le_zero.1 hs)
      subst this
      exact h1 [] rfl
    | succ n ih =>
      intro s hs
      rcases nlCases s with ⟨r, heq, _⟩ | ⟨r, heq, _⟩ | hn
      · subst heq
        exact h2 r (ih r (by simp only [List.length_cons] at hs; omega))
      · subst heq
        exact h3 r (ih r (by simp only [List.length_cons] at hs; omega))
      · exact h1 s hn
  exact fun s => key s.length s le_rfl

/-- Newline runs consist only of `'\n'` and `'\r'` characters. -/
theorem isNlRun_chars : ∀ (u : List Char), isNlRun u = true →
    ∀ c ∈ u, c = '\n' ∨ c = '\r' := by
  refine nlInduction _ ?_ ?_ ?_
  · intro s hn hrun c hc
    rw [isNlRun_step, hn] at hrun
    rw [List.isEmpty_iff.1 hrun] at hc
    simp at hc
  · intro r ih hrun c hc
    have hr : isNlRun r = true := hrun
    rcases List.mem_cons.1 hc with rfl | hc
    · right; rfl
    rcases List.mem_cons.1 hc with rfl | hc
    · left; rfl
    exact ih hr c hc
  · intro r ih hrun c hc
    have hr : isNlRun r = true := hrun
    rcases List.mem_cons.1 hc with rfl | hc
    · left; rfl
    exact ih hr c hc

theorem nlRunEnd_length : ∀ (s : List Char), (nlRunEnd s).length ≤ s.length := by
  refine nlInduction _ ?_ ?_ ?_
  · intro s hn; rw [nlRunEnd_eq_self hn]
  · intro r ih
    have : nlRunEnd ('\r' :: '\n' :: r) = nlRunEnd r := rfl
    rw [this]; simp only [List.length_cons]; omega
  · intro r ih
    have : nlRunEnd ('\n' :: r) = nlRunEnd r := rfl
    rw [this]; simp only [List.length_cons]; omega

/-- Any member of the newline-run suffix list is preceded, inside the text,
by a nonempty newline run. -/
theorem nlRunSuffixes_decomp : ∀ (s : List Char), ∀ x ∈ nlRunSuffixes s,
    ∃ u, s = u ++ x ∧ isNlRun u = true ∧ u ≠ [] := by
  refine nlInduction _ ?_ ?_ ?_
  · intro s hn x hx
    rw [nlRunSuffixes_eq_nil hn] at hx
    simp at hx
  · intro r ih x hx
    have : nlRunSuffixes ('\r' :: '\n' :: r) = r :: nlRunSuffixes r := rfl
    rw [this] at hx
    rcases List.mem_cons.1 hx with rfl | hx
    · exact ⟨['\r', '\n'], rfl, rfl, by simp⟩
    · obtain ⟨u, hu, hrun, hne⟩ := ih x hx
      refine ⟨'\r' :: '\n' :: u, by simp [hu], ?_, by simp⟩
      show isNlRun u = true
      exact hrun
  · intro r ih x hx
    have : nlRunSuffixes ('\n' :: r) = r :: nlRunSuffixes r := rfl
    rw [this] at hx
    rcases List.mem_cons.1 hx with rfl | hx
    · exact ⟨['\n'], rfl, rfl, by simp⟩
    · obtain ⟨u, hu, hrun, hne⟩ := ih x hx
      refine ⟨'\n' :: u, by simp [hu], ?_, by simp⟩
      show isNlRun u = true
      exact hrun

/-- Conversely, a nonempty newline run before `x` puts `x` in the suffix
list. -/
theorem mem_nlRunSuffixes_append : ∀ (u : List Char), isNlRun u = true →
    u ≠ [] → ∀ x, x ∈ nlRunSuffixes (u ++ x) := by
  refine nlInduction _ ?_ ?_ ?_
  · intro s hn hrun hne x
    rw [isNlRun_step, hn] at hrun
    exact absurd (List.isEmpty_iff.1 hrun) hne
  · intro r ih hrun _ x
    have hr : isNlRun r = true := hrun
    have : nlRunSuffixes (('\r' :: '\n' :: r) ++ x)
        = (r ++ x) :: nlRunSuffixes (r ++ x) := rfl
    rw [this]
    rcases eq_or_ne r [] with rfl | hne
    · simp
    · exact List.mem_cons.2 (Or.inr (ih hr hne x))
  · intro r ih hrun _ x
    have hr : isNlRun r = true := hrun
    have : nlRunSuffixes (('\n' :: r) ++ x)
        = (r ++ x) :: nlRunSuffixes (r ++ x) := rfl
    rw [this]
    rcases eq_or_ne r [] with rfl | hne
    · simp
    · exact List.mem_cons.2 (Or.inr (ih hr hne x))

/-! ## Inversion and construction lemmas for the three matchers -/

/-- The body function applied by all three matchers. -/
theorem matcher_body_some {d s1 res : List Char}
    (h : (if d.isPrefixOf s1 then
            (if (nlTok (s1.drop d.length)).isSome
              then some (nlRunEnd (s1.drop d.length)) else none)
          else none) = some res) :
    ∃ w, s1 = d ++ w ∧ (nlTok w).isSome ∧ res = nlRunEnd w := by
  by_cases hp : d.isPrefixOf s1
  · rw [if_pos hp] at h
    obtain ⟨w, hw⟩ := (List.isPrefixOf_iff_prefix.1 hp)
    by_cases ht : (nlTok (s1.drop d.length)).isSome
    · rw [if_pos ht] at h
      refine ⟨s1.drop d.length, ?_, ht, (Option.some.injEq _ _ ▸ h).symm⟩
      conv_lhs => rw [← hw]
      rw [← hw, List.drop_left]
    · rw [if_neg ht] at h; cases h
  · rw [if_neg hp] at h; cases h

/-- Inversion for `matchMid`: a match means the text is a nonempty newline
run, then the delimiter, then a line break. -/
theorem matchMid_inversion {d s res : List Char} (h : matchMid d s = some res) :
    ∃ u w, s = u ++ d ++ w ∧ isNlRun u = true ∧ u ≠ [] ∧
      (nlTok w).isSome ∧ res = nlRunEnd w := by
  obtain ⟨s1, hmem, hbody⟩ := List.exists_of_findSome?_eq_some h
  rw [List.mem_reverse] at hmem
  obtain ⟨u, hu, hrun, hne⟩ := nlRunSuffixes_decomp s s1 hmem
  obtain ⟨w, hw, ht, hres⟩ := matcher_body_some hbody
  exact ⟨u, w, by rw [hu, hw, List.append_assoc], hrun, hne, ht, hres⟩

/-- Inversion for `matchStart`: a match means a possibly empty newline run,
the delimiter, then a line break. -/
theorem matchStart_inversion {d s res : List Char}
    (h : matchStart d s = some res) :
    ∃ u w, s = u ++ d ++ w ∧ isNlRun u = true ∧
      (nlTok w).isSome ∧ res = nlRunEnd w := by
  obtain ⟨s1, hmem, hbody⟩ := List.exists_of_findSome?_eq_some h
  rw [List.mem_reverse] at hmem
  obtain ⟨w, hw, ht, hres⟩ := matcher_body_some hbody
  rcases List.mem_cons.1 hmem with rfl | hmem
  · exact ⟨[], w, by rw [hw]; rfl, rfl, ht, hres⟩
  · obtain ⟨u, hu, hrun, hne⟩ := nlRunSuffixes_decomp s s1 hmem
    exact ⟨u, w, by rw [hu, hw, List.append_assoc], hrun, ht, hres⟩

/-- Inversion for `endMatchHere`: success means a nonempty newline run, the
delimiter, then newlines to the end of the text. -/
theorem endMatchHere_inversion {d s : List Char} (h : endMatchHere d s = true) :
    ∃ u w, s = u ++ d ++ w ∧ isNlRun u = true ∧ u ≠ [] ∧ isNlRun w = true := by
  obtain ⟨s1, hmem, hbody⟩ := List.any_eq_true.1 h
  obtain ⟨u, hu, hrun, hne⟩ := nlRunSuffixes_decomp s s1 hmem
  rw [Bool.and_eq_true] at hbody
  obtain ⟨w, hw⟩ := (List.isPrefixOf_iff_prefix.1 hbody.1)
  refine ⟨u, w, by rw [hu, ← hw, List.append_assoc], hrun, hne, ?_⟩
  have := hbody.2
  rwa [← hw, List.drop_left] at this

theorem matchMid_none_of_head {d s : List Char} (h : nlTok s = none) :
    matchMid d s = none := by
  unfold matchMid
  rw [nlRunSuffixes_eq_nil h]
  rfl

theorem endMatchHere_false_of_head {d s : List Char} (h : nlTok s = none) :
    endMatchHere d s = false := by
  unfold endMatchHere
  rw [nlRunSuffixes_eq_nil h]
  rfl

/-- The matcher body succeeds on `d ++ w` when a line break follows `d`. -/
theorem matcher_body_fire (d w : List Char) (ht : (nlTok w).isSome) :
    (if d.isPrefixOf (d ++ w) then
        (if (nlTok ((d ++ w).drop d.length)).isSome
          then some (nlRunEnd ((d ++ w).drop d.length)) else none)
      else none) = some (nlRunEnd w) := by
  rw [if_pos (List.isPrefixOf_iff_prefix.2 (List.prefix_append d w))]
  rw [List.drop_left]
  rw [if_pos ht]

/-- `matchMid` fires on one `'\n'`, the delimiter, one `'\n'`, then text not
starting with a line break, consuming exactly that span (provided the
delimiter itself does not begin with a line break). -/
theorem matchMid_fire {d x : List Char}
    (h1 : nlTok (d ++ '\n' :: x) = none) (h2 : nlTok x = none) :
    matchMid d ('\n' :: (d ++ '\n' :: x)) = some x := by
  unfold matchMid
  have hsfx : nlRunSuffixes ('\n' :: (d ++ '\n' :: x))
      = (d ++ '\n' :: x) :: nlRunSuffixes (d ++ '\n' :: x) := rfl
  rw [hsfx, nlRunSuffixes_eq_nil h1]
  show List.findSome? _ [d ++ '\n' :: x] = some x
  rw [List.findSome?_cons]
  rw [matcher_body_fire d ('\n' :: x) (by rfl)]
  have : nlRunEnd ('\n' :: x) = nlRunEnd x := rfl
  rw [this, nlRunEnd_eq_self h2]

/-- `matchStart` fires with an empty leading run on the delimiter followed by
one `'\n'` and text not starting with a line break. -/
theorem matchStart_fire {d x : List Char}
    (h1 : nlTok (d ++ '\n' :: x) = none) (h2 : nlTok x = none) :
    matchStart d (d ++ '\n' :: x) = some x := by
  unfold matchStart
  rw [nlRunSuffixes_eq_nil h1]
  show List.findSome? _ [d ++ '\n' :: x] = some x
  rw [List.findSome?_cons]
  rw [matcher_body_fire d ('\n' :: x) (by rfl)]
  have : nlRunEnd ('\n' :: x) = nlRunEnd x := rfl
  rw [this, nlRunEnd_eq_self h2]

/-- Every successful `matchMid` consumes at least one character. -/
theorem matchMid_length {d s res : List Char} (h : matchMid d s = some res) :
    res.length < s.length := by
  obtain ⟨u, w, hs, hrun, hne, ht, hres⟩ := matchMid_inversion h
  have h1 : res.length ≤ w.length := hres ▸ nlRunEnd_length w
  have h2 : 1 ≤ u.length := by
    cases u with
    | nil => exact absurd rfl hne
    | cons a t => simp only [List.length_cons]; omega
  rw [hs]
  simp only [List.length_append]
  omega

/-! ## The global replace -/

theorem replAllF_fuel {m : List Char → Option (List Char)} {r : List Char}
    (hm : ∀ s res, m s = some res → res.length < s.length) :
    ∀ n (s : List Char) f1 f2, s.length ≤ n → s.length ≤ f1 →
      s.length ≤ f2 → replAllF m r f1 s = replAllF m r f2 s := by
  intro n
  induction n with
  | zero =>
    intro s f1 f2 hn _ _
    have : s = [] := List.eq_nil_of_length_eq_zero (Nat.le_zero.1 hn)
    subst this
    cases f1 <;> cases f2 <;> rfl
  | succ n ih =>
    intro s f1 f2 hn h1 h2
    cases s with
    | nil => cases f1 <;> cases f2 <;> rfl
    | cons c t =>
      simp only [List.length_cons] at hn h1 h2
      cases f1 with
      | zero => omega
      | succ f1 =>
        cases f2 with
        | zero => omega
        | succ f2 =>
          show (match m (c :: t) with
            | some rest => r ++ replAllF m r f1 rest
            | none => c :: replAllF m r f1 t) = (match m (c :: t) with
            | some rest => r ++ replAllF m r f2 rest
            | none => c :: replAllF m r f2 t)
          cases hcall : m (c :: t) with
          | some rest =>
            have hlen := hm _ _ hcall
            simp only [List.length_cons] at hlen
            show r ++ replAllF m r f1 rest = r ++ replAllF m r f2 rest
            rw [ih rest f1 f2 (by omega) (by omega) (by omega)]
          | none =>
            show c :: replAllF m r f1 t = c :: replAllF m r f2 t
            rw [ih t f1 f2 (by omega) (by omega) (by omega)]

/-- Step equation for `replAll` (the fuelled runner with adequate fuel). -/
theorem replAll_step {m : List Char → Option (List Char)} {r : List Char}
    (hm : ∀ s res, m s = some res → res.length < s.length) (s : List Char) :
    replAll m r s = match s with
      | [] => []
      | c :: t => match m (c :: t) with
        | some rest => r ++ replAll m r rest
        | none => c :: replAll m r t := by
  cases s with
  | nil => rfl
  | cons c t =>
    show replAllF m r (t.length + 1) (c :: t) = match m (c :: t) with
      | some rest => r ++ replAll m r rest
      | none => c :: replAll m r t
    show (match m (c :: t) with
      | some rest => r ++ replAllF m r t.length rest
      | none => c :: replAllF m r t.length t) = _
    cases hcall : m (c :: t) with
    | some rest =>
      have hlen := hm _ _ hcall
      simp only [List.length_cons] at hlen
      show r ++ replAllF m r t.length rest = r ++ replAll m r rest
      rw [replAllF_fuel hm rest.length rest t.length rest.length
        le_rfl (by omega) le_rfl]
      rfl
    | none => rfl

/-- If the matcher fails at every nonempty suffix position inside `A` (with
`S` following), the scan copies `A` unchanged and continues on `S`. -/
theorem replAll_append {m : List Char → Option (List Char)} {r : List Char}
    (hm : ∀ s res, m s = some res → res.length < s.length) :
    ∀ (A S : List Char),
      (∀ a, a ≠ [] → a.IsSuffix A → m (a ++ S) = none) →
      replAll m r (A ++ S) = A ++ replAll m r S := by
  intro A
  induction A with
  | nil => intro S _; rfl
  | cons c t ih =>
    intro S hA
    rw [replAll_step hm]
    have hz : m ((c :: t) ++ S) = none := hA (c :: t) (by simp) (List.suffix_refl _)
    show (match m (c :: (t ++ S)) with
      | some rest => r ++ replAll m r rest
      | none => c :: replAll m r (t ++ S)) = _
    rw [show c :: (t ++ S) = (c :: t) ++ S from rfl, hz]
    show c :: replAll m r (t ++ S) = c :: t ++ replAll m r S
    rw [ih S (fun a hne hsfx => hA a hne (hsfx.trans (List.suffix_cons c t)))]
    rfl

/-- If the matcher fails at every nonempty suffix position, the scan is the
identity. -/
theorem replAll_id {m : List Char → Option (List Char)} {r : List Char}
    (hm : ∀ s res, m s = some res → res.length < s.length) (s : List Char)
    (h : ∀ a, a ≠ [] → a.IsSuffix s → m a = none) :
    replAll m r s = s := by
  have key : replAll m r (s ++ []) = s ++ replAll m r [] :=
    replAll_append hm s [] (by
      intro a hne hsfx
      rw [List.append_nil]
      exact h a hne hsfx)
  rw [List.append_nil] at key
  rw [key]
  show s ++ ([] : List Char) = s
  rw [List.append_nil]

/-- A match at the head of the text emits the replacement and continues after
the match. -/
theorem replAll_match {m : List Char → Option (List Char)} {r : List Char}
    (hm : ∀ s res, m s = some res → res.length < s.length)
    {s res : List Char} (h : m s = some res) :
    replAll m r s = r ++ replAll m r res := by
  cases s with
  | nil => exact absurd (hm [] res h) (by simp)
  | cons c t =>
    rw [replAll_step hm]
    show (match m (c :: t) with
      | some rest => r ++ replAll m r rest
      | none => c :: replAll m r t) = _
    rw [h]

/-! ## Lemmas about `stripEnd` -/

/-- If the end-of-file pattern matches at no position inside `A` (with `S`
following), the leftmost-match search skips `A`. -/
theorem stripEnd_skip {d : List Char} : ∀ (A S : List Char),
    (∀ a, a ≠ [] → a.IsSuffix A → endMatchHere d (a ++ S) = false) →
    stripEnd d (A ++ S) = (stripEnd d S).map (A ++ ·) := by
  intro A
  induction A with
  | nil =>
    intro S _
    cases h : stripEnd d S <;> simp [h]
  | cons c t ih =>
    intro S hA
    have hz : endMatchHere d ((c :: t) ++ S) = false :=
      hA (c :: t) (by simp) (List.suffix_refl _)
    show (if endMatchHere d (c :: (t ++ S)) then some []
      else match stripEnd d (t ++ S) with
        | some pre => some (c :: pre)
        | none => none) = _
    rw [show c :: (t ++ S) = (c :: t) ++ S from rfl, hz, if_neg (by simp)]
    rw [ih S (fun a hne hsfx => hA a hne (hsfx.trans (List.suffix_cons c t)))]
    cases h : stripEnd d S <;> simp

/-- If the end-of-file pattern matches at no position at all, `stripEnd`
fails. -/
theorem stripEnd_none {d s : List Char}
    (h : ∀ a, a ≠ [] → a.IsSuffix s → endMatchHere d a = false) :
    stripEnd d s = none := by
  have key := stripEnd_skip s [] (by
    intro a hne hsfx
    rw [List.append_nil]
    exact h a hne hsfx)
  rw [List.append_nil] at key
  rw [key]
  rfl

/-! ## Structure of nonempty newline runs -/

/-- A nonempty newline run ends with `'\n'`. -/
theorem isNlRun_ends : ∀ (u : List Char), isNlRun u = true → u ≠ [] →
    ∃ u', u = u' ++ ['\n'] := by
  refine nlInduction _ ?_ ?_ ?_
  · intro s hn hrun hne
    rw [isNlRun_step, hn] at hrun
    exact absurd (List.isEmpty_iff.1 hrun) hne
  · intro r ih hrun _
    have hr : isNlRun r = true := hrun
    rcases eq_or_ne r [] with rfl | hne
    · exact ⟨['\r'], rfl⟩
    · obtain ⟨u', hu'⟩ := ih hr hne
      exact ⟨'\r' :: '\n' :: u', by rw [hu']; rfl⟩
  · intro r ih hrun _
    have hr : isNlRun r = true := hrun
    rcases eq_or_ne r [] with rfl | hne
    · exact ⟨[], rfl⟩
    · obtain ⟨u', hu'⟩ := ih hr hne
      exact ⟨'\n' :: u', by rw [hu']; rfl⟩

/-- A successful `matchMid` at a suffix of `T` exhibits the delimiter inside
`T` directly after a `'\n'` and followed by a line break. -/
theorem suffix_matchMid_decomp {d a res T : List Char} (hsfx : a.IsSuffix T)
    (h : matchMid d a = some res) :
    ∃ X w, T = X ++ '\n' :: (d ++ w) ∧ (nlTok w).isSome := by
  obtain ⟨u, w, ha, hrun, hne, ht, _⟩ := matchMid_inversion h
  obtain ⟨u', hu'⟩ := isNlRun_ends u hrun hne
  obtain ⟨pre, hpre⟩ := hsfx
  refine ⟨pre ++ u', w, ?_, ht⟩
  rw [← hpre, ha, hu']
  simp

/-- Success of `endMatchHere` at a suffix of `T` exhibits the delimiter
inside `T` directly after a `'\n'`. -/
theorem suffix_endMatch_decomp {d a T : List Char} (hsfx : a.IsSuffix T)
    (h : endMatchHere d a = true) :
    ∃ X w, T = X ++ '\n' :: (d ++ w) ∧ isNlRun w = true := by
  obtain ⟨u, w, ha, hrun, hne, hw⟩ := endMatchHere_inversion h
  obtain ⟨u', hu'⟩ := isNlRun_ends u hrun hne
  obtain ⟨pre, hpre⟩ := hsfx
  refine ⟨pre ++ u', w, ?_, hw⟩
  rw [← hpre, ha, hu']
  simp

/-! ## No delimiter occurrence inside the fence-wrapped text (claim C3) -/

theorem nlTok_fence_drop (j : Nat) : nlTok ((fence : List Char).drop j) = none := by
  match j with
  | 0 => rfl
  | 1 => rfl
  | 2 => rfl
  | n + 3 =>
    rw [show (fence : List Char).drop (n + 3) = [] from by
      simp [fence]]
    rfl

/-- No text of the form `fence ++ tag ++ "\n" ++ I` contains `d` directly
after a `'\n'` unless `d` occurs inside `I`. -/
theorem no_end_occ {d tag I X w : List Char} (htag : '\n' ∉ tag)
    (hinf : ¬ d <:+: I)
    (heq : (fence ++ tag) ++ '\n' :: I = X ++ '\n' :: (d ++ w)) : False := by
  set H : List Char := fence ++ tag with hH
  have hHn : '\n' ∉ H := by
    intro hmem
    rcases List.mem_append.1 hmem with hm | hm
    · revert hm; decide
    · exact htag hm
  by_cases hlen : X.length < H.length
  · -- `d` would start inside the header line, whose characters are not '\n'
    have h1 : (H ++ '\n' :: I).drop X.length = H.drop X.length ++ '\n' :: I :=
      List.drop_append_of_le_length (Nat.le_of_lt hlen)
    have h2 : (X ++ '\n' :: (d ++ w)).drop X.length = '\n' :: (d ++ w) := by
      rw [List.drop_append_of_le_length le_rfl, List.drop_length]
      rfl
    rw [heq, h2] at h1
    cases hdrop : H.drop X.length with
    | nil =>
      have := congrArg List.length hdrop
      simp only [List.length_drop, List.length_nil] at this
      omega
    | cons c rest =>
      rw [hdrop] at h1
      have hc : c = '\n' := by
        have := congrArg (fun l => l.head?) h1
        simpa using this.symm
      apply hHn
      rw [← hc]
      exact List.mem_of_mem_drop (hdrop ▸ List.mem_cons_self c rest)
  · -- `d ++ w` is a suffix of `I`, so `d` is an infix of `I`
    push_neg at hlen
    set k : Nat := X.length - H.length with hk
    have hXlen : X.length = H.length + k := by omega
    have h1 : (H ++ '\n' :: I).drop (X.length + 1) = I.drop k := by
      have : H ++ '\n' :: I = (H ++ ['\n']) ++ I := by simp
      rw [this, show X.length + 1 = (H ++ ['\n']).length + k by
        simp [List.length_append]; omega]
      exact List.drop_append k
    have h2 : (X ++ '\n' :: (d ++ w)).drop (X.length + 1) = d ++ w := by
      have : X ++ '\n' :: (d ++ w) = (X ++ ['\n']) ++ (d ++ w) := by simp
      rw [this, show X.length + 1 = (X ++ ['\n']).length + 0 by
        simp [List.length_append]]
      rw [List.drop_append 0]
      rfl
    rw [heq, h2] at h1
    apply hinf
    refine ⟨I.take k, w, ?_⟩
    rw [List.append_assoc, h1, List.take_append_drop]

/-- No text of the form `fence ++ tag ++ "\n" ++ I ++ "\n" ++ fence` contains
`d` directly after a `'\n'` and followed by a line break, unless `d` occurs
inside `I`. -/
theorem no_mid_occ {d tag I X w : List Char} (htag : '\n' ∉ tag)
    (hinf : ¬ d <:+: I) (hw : (nlTok w).isSome)
    (heq : (fence ++ tag) ++ '\n' :: (I ++ '\n' :: fence)
      = X ++ '\n' :: (d ++ w)) : False := by
  set H : List Char := fence ++ tag with hH
  have hHn : '\n' ∉ H := by
    intro hmem
    rcases List.mem_append.1 hmem with hm | hm
    · revert hm; decide
    · exact htag hm
  by_cases hlen : X.length < H.length
  · have h1 : (H ++ '\n' :: (I ++ '\n' :: fence)).drop X.length
        = H.drop X.length ++ '\n' :: (I ++ '\n' :: fence) :=
      List.drop_append_of_le_length (Nat.le_of_lt hlen)
    have h2 : (X ++ '\n' :: (d ++ w)).drop X.length = '\n' :: (d ++ w) := by
      rw [List.drop_append_of_le_length le_rfl, List.drop_length]
      rfl
    rw [heq, h2] at h1
    cases hdrop : H.drop X.length with
    | nil =>
      have := congrArg List.length hdrop
      simp only [List.length_drop, List.length_nil] at this
      omega
    | cons c rest =>
      rw [hdrop] at h1
      have hc : c = '\n' := by
        have := congrArg (fun l => l.head?) h1
        simpa using this.symm
      apply hHn
      rw [← hc]
      exact List.mem_of_mem_drop (hdrop ▸ List.mem_cons_self c rest)
  · push_neg at hlen
    set k : Nat := X.length - H.length with hk
    have h1 : (H ++ '\n' :: (I ++ '\n' :: fence)).drop (X.length + 1)
        = (I ++ '\n' :: fence).drop k := by
      have hsplit : H ++ '\n' :: (I ++ '\n' :: fence)
          = (H ++ ['\n']) ++ (I ++ '\n' :: fence) := by simp
      rw [hsplit, show X.length + 1 = (H ++ ['\n']).length + k by
        simp [List.length_append]; omega]
      exact List.drop_append k
    have h2 : (X ++ '\n' :: (d ++ w)).drop (X.length + 1) = d ++ w := by
      have hsplit : X ++ '\n' :: (d ++ w) = (X ++ ['\n']) ++ (d ++ w) := by simp
      rw [hsplit, show X.length + 1 = (X ++ ['\n']).length + 0 by
        simp [List.length_append]]
      rw [List.drop_append 0]
      rfl
    rw [heq, h2] at h1
    -- `h1 : d ++ w = (I ++ '\n' :: fence).drop k`
    by_cases hkI : k ≤ I.length
    · rw [List.drop_append_of_le_length hkI] at h1
      by_cases hdI : d.length ≤ I.length - k
      · -- `d` lies entirely inside `I`
        have hd : d = (I.drop k).take d.length := by
          have := congrArg (List.take d.length) h1
          rw [List.take_left' rfl] at this
          rw [List.take_append_of_le_length (by
            simp only [List.length_drop]; omega)] at this
          exact this
        apply hinf
        refine ⟨I.take k, (I.drop k).drop d.length, ?_⟩
        calc I.take k ++ d ++ (I.drop k).drop d.length
            = I.take k ++ ((I.drop k).take d.length ++ (I.drop k).drop d.length) := by
              rw [← hd, List.append_assoc]
          _ = I.take k ++ I.drop k := by rw [List.take_append_drop]
          _ = I := List.take_append_drop k I
      · -- `d` overhangs into the closing-fence tail, so `w` has no line break
        have hwdrop : w = ('\n' :: fence).drop (d.length - (I.length - k)) := by
          have := congrArg (List.drop d.length) h1
          rw [List.drop_left' rfl] at this
          rw [List.drop_append_eq_append_drop] at this
          rw [List.drop_eq_nil_of_le (by simp only [List.length_drop]; omega)] at this
          simpa [List.length_drop] using this
        obtain ⟨j, hj⟩ : ∃ j, d.length - (I.length - k) = j + 1 :=
          ⟨d.length - (I.length - k) - 1, by omega⟩
        rw [hj] at hwdrop
        rw [show ('\n' :: fence).drop (j + 1) = (fence : List Char).drop j
          from rfl] at hwdrop
        rw [hwdrop, nlTok_fence_drop j] at hw
        cases hw
    · -- the whole of `d ++ w` lies in the closing-fence tail
      push_neg at hkI
      rw [List.drop_append_eq_append_drop] at h1
      rw [List.drop_eq_nil_of_le (by omega)] at h1
      have hwdrop : w = ('\n' :: fence).drop (k - I.length + d.length) := by
        have := congrArg (List.drop d.length) h1
        rw [List.drop_left' rfl] at this
        rw [List.nil_append, List.drop_drop] at this
        exact this
      obtain ⟨j, hj⟩ : ∃ j, k - I.length + d.length = j + 1 :=
        ⟨k - I.length + d.length - 1, by omega⟩
      rw [hj] at hwdrop
      rw [show ('\n' :: fence).drop (j + 1) = (fence : List Char).drop j
        from rfl] at hwdrop
      rw [hwdrop, nlTok_fence_drop j] at hw
      cases hw

/-- The central no-delimiter theorem: when neither delimiter occurs in the
input and the tag has no line break, the conversion is exactly one
fence-wrapping of the input. -/
theorem convertText_no_delims {op cl tag I : List Char}
    (hop : ¬ op <:+: I) (hcl : ¬ cl <:+: I) (htag : '\n' ∉ tag) :
    convertText op cl tag I = fence ++ tag ++ eol ++ I ++ eol ++ fence := by
  have hmc : ∀ (s res : List Char), matchMid cl s = some res →
      res.length < s.length := fun _ _ h => matchMid_length h
  have hmo : ∀ (s res : List Char), matchMid op s = some res →
      res.length < s.length := fun _ _ h => matchMid_length h
  have hstart : matchStart op I = none := by
    cases h : matchStart op I with
    | none => rfl
    | some res =>
      obtain ⟨u, w, heq, -, -, -⟩ := matchStart_inversion h
      exact absurd ⟨u, w, heq.symm⟩ hop
  have e1 : startStep op tag I = (fence ++ tag) ++ '\n' :: I := by
    simp only [startStep, hstart]
    simp [eol]
  have hend : stripEnd cl ((fence ++ tag) ++ '\n' :: I) = none := by
    apply stripEnd_none
    intro a hne hsfx
    cases h : endMatchHere cl a with
    | false => rfl
    | true =>
      obtain ⟨X, w, heq, -⟩ := suffix_endMatch_decomp hsfx h
      exact (no_end_occ htag hcl heq).elim
  have e2 : endStep cl ((fence ++ tag) ++ '\n' :: I)
      = (fence ++ tag) ++ '\n' :: (I ++ '\n' :: fence) := by
    simp only [endStep, hend]
    simp [eol]
  have hclose : ∀ a, a ≠ [] →
      a.IsSuffix ((fence ++ tag) ++ '\n' :: (I ++ '\n' :: fence)) →
      matchMid cl a = none := by
    intro a hne hsfx
    cases h : matchMid cl a with
    | none => rfl
    | some res =>
      obtain ⟨X, w, heq, hw⟩ := suffix_matchMid_decomp hsfx h
      exact (no_mid_occ htag hcl hw heq).elim
  have hopen : ∀ a, a ≠ [] →
      a.IsSuffix ((fence ++ tag) ++ '\n' :: (I ++ '\n' :: fence)) →
      matchMid op a = none := by
    intro a hne hsfx
    cases h : matchMid op a with
    | none => rfl
    | some res =>
      obtain ⟨X, w, heq, hw⟩ := suffix_matchMid_decomp hsfx h
      exact (no_mid_occ htag hop hw heq).elim
  have e3 : closeSubst cl tag ((fence ++ tag) ++ '\n' :: (I ++ '\n' :: fence))
      = (fence ++ tag) ++ '\n' :: (I ++ '\n' :: fence) :=
    replAll_id hmc _ hclose
  have e4 : openSubst op ((fence ++ tag) ++ '\n' :: (I ++ '\n' :: fence))
      = (fence ++ tag) ++ '\n' :: (I ++ '\n' :: fence) :=
    replAll_id hmo _ hopen
  show openSubst op (closeSubst cl tag (endStep cl (startStep op tag I))) = _
  rw [e1, e2, e3, e4]
  simp [eol]

theorem nlTok_append {v r : List Char} (h : nlTok v = some r) (X : List Char) :
    nlTok (v ++ X) = some (r ++ X) := by
  rcases nlCases v with ⟨r', heq, hr⟩ | ⟨r', heq, hr⟩ | hn
  · rw [hr] at h; cases h; subst heq; rfl
  · rw [hr] at h; cases h; subst heq; rfl
  · rw [hn] at h; cases h

/-- A nonempty newline run starts with a token, also with anything
appended. -/
theorem nlTok_isSome_run_append {v : List Char} (hv : isNlRun v = true)
    (hne : v ≠ []) (X : List Char) : (nlTok (v ++ X)).isSome := by
  rw [isNlRun_step] at hv
  cases ht : nlTok v with
  | none =>
    rw [ht] at hv
    exact absurd (List.isEmpty_iff.1 hv) hne
  | some r => rw [nlTok_append ht X]; rfl

/-- A member of the scanned list on which the body succeeds makes
`findSome?` succeed. -/
theorem findSome?_isSome_of_mem {α β : Type} {l : List α} {f : α → Option β}
    {x : α} {y : β} (hmem : x ∈ l) (hx : f x = some y) :
    (l.findSome? f).isSome := by
  cases h : l.findSome? f with
  | some z => rfl
  | none =>
    have := List.findSome?_eq_none_iff.1 h x hmem
    rw [hx] at this
    cases this

/-! ## Skip lemmas: where the interior matchers cannot fire -/

/-- A suffix of `A ++ B` is a suffix of `B`, or extends `B` by a nonempty
suffix of `A`. -/
theorem suffix_append_cases {α : Type} {a A B : List α} (h : a.IsSuffix (A ++ B)) :
    a.IsSuffix B ∨ ∃ a', a = a' ++ B ∧ a'.IsSuffix A ∧ a' ≠ [] := by
  obtain ⟨pre, hpre⟩ := h
  by_cases hlen : a.length ≤ B.length
  · left
    have hdrop : a = B.drop (pre.length - A.length) := by
      have h1 : (pre ++ a).drop pre.length = a := by
        rw [List.drop_append_of_le_length le_rfl, List.drop_length,
          List.nil_append]
      have hplen : A.length ≤ pre.length := by
        have := congrArg List.length hpre
        simp only [List.length_append] at this
        omega
      rw [hpre] at h1
      rw [show pre.length = A.length + (pre.length - A.length) by omega] at h1
      rw [List.drop_append (pre.length - A.length)] at h1
      exact h1.symm
    rw [hdrop]
    exact List.drop_suffix _ _
  · right
    push_neg at hlen
    have hlens : pre.length + a.length = A.length + B.length := by
      have := congrArg List.length hpre
      simpa [List.length_append] using this
    have hsplit : a.drop (a.length - B.length) = B := by
      have h1 : (pre ++ a).drop (pre.length + (a.length - B.length))
          = a.drop (a.length - B.length) := List.drop_append _
      rw [hpre] at h1
      rw [show pre.length + (a.length - B.length) = A.length + 0 by omega] at h1
      rw [List.drop_append 0] at h1
      simpa using h1.symm
    refine ⟨a.take (a.length - B.length), ?_, ?_, ?_⟩
    · conv_lhs => rw [← List.take_append_drop (a.length - B.length) a]
      rw [hsplit]
    · have hA : (A ++ B).take (pre.length + (a.length - B.length)) = A := by
        rw [show pre.length + (a.length - B.length) = A.length by omega,
          List.take_left]
      rw [← hpre, List.take_append] at hA
      exact ⟨pre, hA⟩
    · intro hnil
      have := congrArg List.length hnil
      simp only [List.length_take, List.length_nil] at this
      omega

/-- A prefix of `g ++ Y` is a prefix of `g`, or is `g` extended by a prefix
of `Y`. -/
theorem prefix_append_cases {α : Type} {d g Y : List α} (h : d.IsPrefix (g ++ Y)) :
    d.IsPrefix g ∨ ∃ d₂, d = g ++ d₂ ∧ d₂.IsPrefix Y := by
  obtain ⟨post, hpost⟩ := h
  by_cases hlen : d.length ≤ g.length
  · left
    have : d = g.take d.length := by
      have h1 : (d ++ post).take d.length = d := by
        rw [List.take_append_of_le_length le_rfl, List.take_length]
      rw [hpost, List.take_append_of_le_length hlen] at h1
      exact h1.symm
    rw [this]
    exact List.take_prefix _ _
  · right
    push_neg at hlen
    have hg : d.take g.length = g := by
      have h1 : (d ++ post).take g.length = d.take g.length :=
        List.take_append_of_le_length (Nat.le_of_lt hlen)
      rw [hpost, List.take_left] at h1
      exact h1.symm
    refine ⟨d.drop g.length, ?_, ?_⟩
    · conv_lhs => rw [← List.take_append_drop g.length d]
      rw [hg]
    · have hY : (d ++ post).drop g.length = d.drop g.length ++ post :=
        List.drop_append_of_le_length (Nat.le_of_lt hlen)
      rw [hpost, List.drop_left] at hY
      exact ⟨post, hY.symm⟩

/-- The interior matcher fails on `'\n' :: S` when the delimiter is not a
prefix of `S` and `S` does not start with a line break. -/
theorem matchMid_cons_nl_none {d S : List Char} (htok : nlTok S = none)
    (hpre : ¬ d.IsPrefix S) : matchMid d ('\n' :: S) = none := by
  unfold matchMid
  rw [show nlRunSuffixes ('\n' :: S) = S :: nlRunSuffixes S from rfl,
    nlRunSuffixes_eq_nil htok]
  show List.findSome? _ [S] = none
  rw [List.findSome?_cons]
  rw [if_neg (fun hp => hpre (List.isPrefixOf_iff_prefix.1 hp))]
  rfl

/-- Same, one blank line earlier. -/
theorem matchMid_cons_nl2_none {d S : List Char} (htok : nlTok S = none)
    (hpre1 : ¬ d.IsPrefix S) (hpre2 : ¬ d.IsPrefix ('\n' :: S)) :
    matchMid d ('\n' :: '\n' :: S) = none := by
  unfold matchMid
  rw [show nlRunSuffixes ('\n' :: '\n' :: S)
    = ('\n' :: S) :: S :: nlRunSuffixes S from rfl, nlRunSuffixes_eq_nil htok]
  show List.findSome? _ [S, '\n' :: S] = none
  rw [List.findSome?_cons]
  rw [if_neg (fun hp => hpre1 (List.isPrefixOf_iff_prefix.1 hp))]
  show List.findSome? _ ['\n' :: S] = none
  rw [List.findSome?_cons]
  rw [if_neg (fun hp => hpre2 (List.isPrefixOf_iff_prefix.1 hp))]
  rfl

/-- Two nonempty lists can only be prefixes of a common list if their heads
agree. -/
theorem prefix_head_eq {d A rest : List Char} (hd : d ≠ []) (hA : A ≠ [])
    (h : d.IsPrefix (A ++ rest)) : d.head? = A.head? := by
  cases d with
  | nil => exact absurd rfl hd
  | cons dh dt =>
    cases A with
    | nil => exact absurd rfl hA
    | cons ah at' =>
      obtain ⟨post, hpost⟩ := h
      have : dh = ah := by
        have := congrArg List.head? hpost
        simpa using this
      rw [this]
      rfl

/-- SkipOK for a chunk whose characters are all non-line-break: the matchers
need a leading line break. -/
theorem skip_nonNl {m : List Char → Option (List Char)}
    (hm : ∀ s, nlTok s = none → m s = none)
    {A : List Char} (hA : ∀ c ∈ A, c ≠ '\n' ∧ c ≠ '\r') (S : List Char) :
    SkipOK m A S := by
  intro a hne hsfx
  cases a with
  | nil => exact absurd rfl hne
  | cons c a' =>
    have hc : c ∈ A := hsfx.sublist.mem (List.mem_cons_self c a')
    exact hm _ (nlTok_none_of_head (hA c hc).1 (hA c hc).2)

/-- SkipOK for a segment chunk: its characters avoid the delimiter's
characters entirely and it does not end with a line break, so no interior
match can start inside it, whatever follows. -/
theorem skip_seg {d A : List Char} (S : List Char) (hd : d ≠ [])
    (hdisj : ∀ c ∈ A, c ∉ d)
    (hlast : ∀ c, A.getLast? = some c → c ≠ '\n' ∧ c ≠ '\r') :
    SkipOK (matchMid d) A S := by
  intro a hne hsfx
  cases h : matchMid d (a ++ S) with
  | none => rfl
  | some res =>
    exfalso
    obtain ⟨u, w, heq, hrun, hune, -, -⟩ := matchMid_inversion h
    rw [List.append_assoc] at heq
    by_cases hcase : u.length < a.length
    · -- the delimiter's head is a character of `a`, contradiction
      have hdropA : (a ++ S).drop u.length = a.drop u.length ++ S :=
        List.drop_append_of_le_length (Nat.le_of_lt hcase)
      have hdropU : (u ++ (d ++ w)).drop u.length = d ++ w := by
        rw [List.drop_append_of_le_length le_rfl, List.drop_length,
          List.nil_append]
      rw [← heq, hdropA] at hdropU
      cases d with
      | nil => exact absurd rfl hd
      | cons dh dt =>
        cases hda : a.drop u.length with
        | nil =>
          have := congrArg List.length hda
          simp only [List.length_drop, List.length_nil] at this
          omega
        | cons ch ct =>
          rw [hda] at hdropU
          have hch : ch = dh := by
            have := congrArg List.head? hdropU
            simpa using this
          have hmem : ch ∈ a := List.mem_of_mem_drop (hda ▸ List.mem_cons_self ch ct)
          have hmemA : ch ∈ A := hsfx.sublist.mem hmem
          exact hdisj ch hmemA (hch ▸ List.mem_cons_self dh dt)
    · -- `a` would lie inside the newline run, contradicting its last char
      push_neg at hcase
      have ha : a = u.take a.length := by
        have h1 : (a ++ S).take a.length = a := by
          rw [List.take_append_of_le_length le_rfl, List.take_length]
        rw [heq] at h1
        rw [List.take_append_of_le_length hcase] at h1
        exact h1.symm
      have hsub : ∀ c ∈ a, c = '\n' ∨ c = '\r' := by
        intro c hc
        have : c ∈ u := by
          rw [ha] at hc
          exact List.mem_of_mem_take hc
        exact isNlRun_chars u hrun c this
      obtain ⟨c, hc⟩ := Option.isSome_iff_exists.1 (List.getLast?_isSome.2 hne)
      have hcA : A.getLast? = some c := by
        obtain ⟨pre, hpre⟩ := hsfx
        rw [← hpre, List.getLast?_append_of_ne_nil pre hne]
        exact hc
      have hcmem : c ∈ a := List.mem_of_getLast?_eq_some hc
      rcases hsub c hcmem with rfl | rfl
      · exact (hlast _ hcA).1 rfl
      · exact (hlast _ hcA).2 rfl

theorem SkipOK_append {m : List Char → Option (List Char)}
    {A B S : List Char} (h1 : SkipOK m A (B ++ S)) (h2 : SkipOK m B S) :
    SkipOK m (A ++ B) S := by
  intro a hne hsfx
  rcases suffix_append_cases hsfx with hc | ⟨a', rfl, hsfx', hne'⟩
  · exact h2 a hne hc
  · rw [List.append_assoc]
    exact h1 a' hne' hsfx'

theorem mem_fence {c : Char} (h : c ∈ (fence : List Char)) : c = '`' := by
  have hf : (fence : List Char) = ['`', '`', '`'] := rfl
  rw [hf] at h
  simpa using h

/-- The only nonempty suffix of a one-element list is the list itself. -/
theorem suffix_singleton {α : Type} {a : List α} {x : α}
    (h : a.IsSuffix [x]) (hne : a ≠ []) : a = [x] := by
  obtain ⟨pre, hpre⟩ := h
  cases pre with
  | nil => simpa using hpre
  | cons z zs =>
    exfalso
    have := congrArg List.length hpre
    simp only [List.length_append, List.length_cons, List.length_nil] at this
    cases a with
    | nil => exact hne rfl
    | cons y ys => simp at this; omega

/-- The interior matcher cannot fire at a lone newline followed by a
segment whose head is not a line break and not a character of the
delimiter. -/
theorem matchMid_nl_seg_none {d seg rest : List Char} (hd : d ≠ [])
    (hseg : seg ≠ [])
    (hhead : ∀ c, seg.head? = some c → (c ≠ '\n' ∧ c ≠ '\r') ∧ c ∉ d) :
    matchMid d ('\n' :: (seg ++ rest)) = none := by
  cases seg with
  | nil => exact absurd rfl hseg
  | cons c seg' =>
    obtain ⟨⟨hn, hr⟩, hmemd⟩ := hhead c rfl
    apply matchMid_cons_nl_none
    · exact nlTok_none_of_head hn hr
    · intro hp
      have := prefix_head_eq hd (by simp) hp
      cases d with
      | nil => exact absurd rfl hd
      | cons dh dt =>
        have hdc : dh = c := by simpa using this
        exact hmemd (hdc ▸ List.mem_cons_self dh dt)

/-- SkipOK for a lone newline followed by a segment. -/
theorem skip_nl_seg {d seg rest : List Char} (hd : d ≠ []) (hseg : seg ≠ [])
    (hhead : ∀ c, seg.head? = some c → (c ≠ '\n' ∧ c ≠ '\r') ∧ c ∉ d) :
    SkipOK (matchMid d) ['\n'] (seg ++ rest) := by
  intro a hne hsfx
  rw [suffix_singleton hsfx hne]
  show matchMid d ('\n' :: (seg ++ rest)) = none
  exact matchMid_nl_seg_none hd hseg hhead

/-- SkipOK for a newline followed by a copy of another delimiter `g` (with a
newline following `g`): the matcher's delimiter is neither a prefix of `g`
nor can it continue past `g` into the line break. -/
theorem skip_nl_delim {d g rest : List Char}
    (hdch : ∀ c ∈ d, c ≠ '\n' ∧ c ≠ '\r') (hd : d ≠ []) (hg : g ≠ [])
    (hgch : ∀ c ∈ g, c ≠ '\n' ∧ c ≠ '\r') (hpre : ¬ d.IsPrefix g) :
    SkipOK (matchMid d) ('\n' :: g) ('\n' :: rest) := by
  intro a hne hsfx
  rcases suffix_append_cases (A := ['\n']) (B := g) hsfx with hc | ⟨a', rfl, hsfx', hne'⟩
  · -- inside `g`: no leading line break
    cases a with
    | nil => exact absurd rfl hne
    | cons c a2 =>
      have hcg : c ∈ g := hc.sublist.mem (List.mem_cons_self c a2)
      exact matchMid_none_of_head
        (nlTok_none_of_head (hgch c hcg).1 (hgch c hcg).2)
  · -- the whole `'\n' :: g`
    rw [suffix_singleton hsfx' hne']
    show matchMid d ('\n' :: (g ++ '\n' :: rest)) = none
    apply matchMid_cons_nl_none
    · cases g with
      | nil => exact absurd rfl hg
      | cons c g' =>
        exact nlTok_none_of_head (hgch c (by simp)).1 (hgch c (by simp)).2
    · intro hp
      rcases prefix_append_cases hp with hpg | ⟨d₂, rfl, hd₂⟩
      · exact hpre hpg
      · cases d₂ with
        | nil =>
          rw [List.append_nil] at hpre
          exact hpre (List.prefix_refl g)
        | cons x d₃ =>
          have hx : x = '\n' := by
            obtain ⟨post, hpost⟩ := hd₂
            have := congrArg List.head? hpost
            simpa using this
          subst hx
          exact (hdch '\n' (List.mem_append.2 (Or.inr (by simp)))).1 rfl

/-- The nonempty suffixes of a two-element list. -/
theorem suffix_pair {α : Type} {a : List α} {x y : α}
    (h : a.IsSuffix [x, y]) : a = [] ∨ a = [y] ∨ a = [x, y] := by
  obtain ⟨pre, hpre⟩ := h
  match pre, hpre with
  | [], h => right; right; simpa using h
  | [z], h =>
    right; left
    have := congrArg List.tail h
    simpa using this
  | z1 :: z2 :: rest, h =>
    left
    have hlen := congrArg List.length h
    simp only [List.length_append, List.length_cons] at hlen
    cases a with
    | nil => rfl
    | cons w ws => exfalso; simp at hlen; omega

/-- SkipOK of an inserted close-replacement `rClose` for the open-delimiter
pass: none of its positions can start an open match, whatever non-line-break
text follows. -/
theorem skip_rClose {op tag seg rest : List Char} (hop : delimOk op)
    (htag : ∀ c ∈ tag, c ≠ '\n' ∧ c ≠ '\r') (hseg : seg ≠ [])
    (hhead : ∀ c, seg.head? = some c → (c ≠ '\n' ∧ c ≠ '\r') ∧ c ∉ op) :
    SkipOK (matchMid op) (rClose tag) (seg ++ rest) := by
  obtain ⟨hopne, hopch⟩ := hop
  have hH : ∀ c ∈ fence ++ tag, c ≠ '\n' ∧ c ≠ '\r' := by
    intro c hc
    rcases List.mem_append.1 hc with hc | hc
    · rw [mem_fence hc]
      exact ⟨by decide, by decide⟩
    · exact htag c hc
  have hnotpre : ¬ op.IsPrefix ((fence ++ tag) ++ '\n' :: (seg ++ rest)) := by
    intro hp
    rcases prefix_append_cases hp with hpg | ⟨d₂, rfl, hd₂⟩
    · have := prefix_head_eq hopne (by simp [fence]) hpg
      cases op with
      | nil => exact absurd rfl hopne
      | cons oh ot =>
        have hoh : oh = '`' := by
          have hfh : (fence : List Char).head? = some '`' := rfl
          rw [hfh] at this
          simpa using this
        exact (hopch oh (by simp)).2.2 hoh
    · have : '`' ∈ fence ++ tag ++ d₂ := by
        apply List.mem_append.2 (Or.inl _)
        apply List.mem_append.2 (Or.inl _)
        decide
      exact (hopch '`' this).2.2 rfl
  have hHtok : nlTok ((fence ++ tag) ++ '\n' :: (seg ++ rest)) = none := by
    rw [show (fence ++ tag) ++ '\n' :: (seg ++ rest)
      = '`' :: (("``".toList ++ tag) ++ '\n' :: (seg ++ rest)) from rfl]
    exact nlTok_none_of_head (by decide) (by decide)
  intro a hne hsfx
  have hshape : rClose tag = ['\n', '\n'] ++ ((fence ++ tag) ++ ['\n']) := by
    simp [rClose, eol]
  rw [hshape] at hsfx
  rcases suffix_append_cases hsfx with hc | ⟨a', rfl, hsfx', hne'⟩
  · -- inside `fence ++ tag ++ ['\n']`
    rcases suffix_append_cases hc with hc2 | ⟨a'', rfl, hsfx'', hne''⟩
    · -- the final newline
      rw [suffix_singleton hc2 hne]
      show matchMid op ('\n' :: (seg ++ rest)) = none
      exact matchMid_nl_seg_none hopne hseg hhead
    · -- starts inside `fence ++ tag`: head is not a line break
      cases a'' with
      | nil => exact absurd rfl hne''
      | cons c a₃ =>
        have hcH : c ∈ fence ++ tag := hsfx''.sublist.mem (List.mem_cons_self c a₃)
        exact matchMid_none_of_head
          (nlTok_none_of_head (hH c hcH).1 (hH c hcH).2)
  · -- starts at one of the two leading newlines
    rcases suffix_pair hsfx' with rfl | rfl | rfl
    · exact absurd rfl hne'
    · show matchMid op (['\n'] ++ ((fence ++ tag) ++ ['\n']) ++ (seg ++ rest))
        = none
      rw [show ['\n'] ++ ((fence ++ tag) ++ ['\n']) ++ (seg ++ rest)
        = '\n' :: ((fence ++ tag) ++ '\n' :: (seg ++ rest)) by simp]
      exact matchMid_cons_nl_none hHtok hnotpre
    · show matchMid op (['\n', '\n'] ++ ((fence ++ tag) ++ ['\n']) ++ (seg ++ rest))
        = none
      rw [show ['\n', '\n'] ++ ((fence ++ tag) ++ ['\n']) ++ (seg ++ rest)
        = '\n' :: '\n' :: ((fence ++ tag) ++ '\n' :: (seg ++ rest)) by simp]
      apply matchMid_cons_nl2_none hHtok hnotpre
      intro hp
      cases op with
      | nil => exact absurd rfl hopne
      | cons oh ot =>
        have hoh : oh = '\n' := by
          obtain ⟨post, hpost⟩ := hp
          have := congrArg List.head? hpost
          simpa using this
        exact (hopch oh (by simp)).1 hoh

/-- SkipOK of the appended closing fence `'\n' :: fence` at the very end of
the text. -/
theorem skip_nl_fence {d : List Char} (hd : delimOk d) :
    SkipOK (matchMid d) ('\n' :: fence) [] := by
  obtain ⟨hdne, hdch⟩ := hd
  intro a hne hsfx
  rcases suffix_append_cases (A := ['\n']) (B := fence) hsfx with hc | ⟨a', rfl, hsfx', hne'⟩
  · cases a with
    | nil => exact absurd rfl hne
    | cons c a2 =>
      have hcg : c ∈ (fence : List Char) := hc.sublist.mem (List.mem_cons_self c a2)
      rw [mem_fence hcg]
      exact matchMid_none_of_head (nlTok_none_of_head (by decide) (by decide))
  · rw [suffix_singleton hsfx' hne']
    rw [show (['\n'] ++ fence) ++ ([] : List Char) = '\n' :: fence by simp]
    apply matchMid_cons_nl_none (by rfl)
    intro hp
    cases d with
    | nil => exact absurd rfl hdne
    | cons dh dt =>
      obtain ⟨post, hpost⟩ := hp
      have hdh : dh = '`' := by
        have hf : (fence : List Char) = '`' :: "``".toList := rfl
        rw [hf] at hpost
        have := congrArg List.head? hpost
        simpa using this
      exact (hdch dh (by simp)).2.2 hdh

/-! ## The two substitution passes on well-formed documents -/

theorem mem_bad_left {op cl : List Char} {c : Char} (h : c ∈ op) :
    c ∈ op ++ cl ++ ['`'] :=
  List.mem_append.2 (Or.inl (List.mem_append.2 (Or.inl h)))

theorem mem_bad_mid {op cl : List Char} {c : Char} (h : c ∈ cl) :
    c ∈ op ++ cl ++ ['`'] :=
  List.mem_append.2 (Or.inl (List.mem_append.2 (Or.inr h)))

theorem mem_of_head?_some {c : Char} {s : List Char} (h : s.head? = some c) :
    c ∈ s := by
  obtain ⟨ys, rfl⟩ := List.head?_eq_some_iff.1 h
  simp

/-- Head-side conditions of a segment for use against a delimiter `d` whose
characters are all in the avoided set. -/
theorem segOk_headPack {op cl s d : List Char}
    (h : segOk (op ++ cl ++ ['`']) s)
    (hd : ∀ c ∈ d, c ∈ op ++ cl ++ ['`']) :
    ∀ c, s.head? = some c → (c ≠ '\n' ∧ c ≠ '\r') ∧ c ∉ d := by
  intro c hc
  refine ⟨h.2.2.1 c hc, fun hmem => ?_⟩
  exact h.2.1 c (mem_of_head?_some hc) (hd c hmem)

theorem segOk_disj {op cl s d : List Char} (h : segOk (op ++ cl ++ ['`']) s)
    (hd : ∀ c ∈ d, c ∈ op ++ cl ++ ['`']) : ∀ c ∈ s, c ∉ d :=
  fun c hc hmem => h.2.1 c hc (hd c hmem)

theorem nlTok_none_of_segOk {bad s : List Char} (h : segOk bad s)
    (X : List Char) : nlTok (s ++ X) = none := by
  cases s with
  | nil => exact absurd rfl h.1
  | cons c s' =>
    exact nlTok_none_of_head (h.2.2.1 c rfl).1 (h.2.2.1 c rfl).2

/-- The close-substitution pass on the interior of a well-formed document:
each `"\n" close "\n"` boundary becomes the close replacement, everything
else is copied. -/
theorem closePass_mid {op cl tag : List Char} (hop : delimOk op)
    (hcl : delimOk cl) (hclop : ¬ cl.IsPrefix op) :
    ∀ (mid : List (List Char × List Char)) (C tail : List Char),
      segOk (op ++ cl ++ ['`']) C →
      (∀ pc ∈ mid, segOk (op ++ cl ++ ['`']) pc.1 ∧
        segOk (op ++ cl ++ ['`']) pc.2) →
      closeSubst cl tag tail = tail →
      closeSubst cl tag (C ++ (renderMid op cl mid ++ tail))
        = C ++ (closedMid op tag mid ++ tail) := by
  have hm : ∀ (s res : List Char), matchMid cl s = some res →
      res.length < s.length := fun _ _ h => matchMid_length h
  have hclbad : ∀ c ∈ cl, c ∈ op ++ cl ++ ['`'] := fun c h => mem_bad_mid h
  intro mid
  induction mid with
  | nil =>
    intro C tail hC hmid htail
    show replAll (matchMid cl) (rClose tag) (C ++ ([] ++ tail))
      = C ++ ([] ++ tail)
    rw [List.nil_append]
    rw [replAll_append hm C tail (skip_seg tail hcl.1
      (segOk_disj hC hclbad) (fun c h => hC.2.2.2 c h))]
    show C ++ closeSubst cl tag tail = C ++ tail
    rw [htail]
  | cons pc rest ih =>
    obtain ⟨P, C'⟩ := pc
    intro C tail hC hmid htail
    have hP := (hmid (P, C') (by simp)).1
    have hC' := (hmid (P, C') (by simp)).2
    have hmid' : ∀ pc ∈ rest, segOk (op ++ cl ++ ['`']) pc.1 ∧
        segOk (op ++ cl ++ ['`']) pc.2 :=
      fun pc h => hmid pc (List.mem_cons.2 (Or.inr h))
    have hshape : C ++ (renderMid op cl ((P, C') :: rest) ++ tail)
        = C ++ (((('\n' :: op) ++ ['\n']) ++ (P ++
            ('\n' :: (cl ++ '\n' :: (C' ++ (renderMid op cl rest ++ tail))))))) := by
      simp [renderMid, renderPair]
    rw [hshape]
    show replAll (matchMid cl) (rClose tag) _ = _
    rw [replAll_append hm C _ (skip_seg _ hcl.1
      (segOk_disj hC hclbad) (fun c h => hC.2.2.2 c h))]
    rw [replAll_append hm (('\n' :: op) ++ ['\n']) _
      (SkipOK_append
        (skip_nl_delim
          (fun c h => ⟨(hcl.2 c h).1, (hcl.2 c h).2.1⟩) hcl.1 hop.1
          (fun c h => ⟨(hop.2 c h).1, (hop.2 c h).2.1⟩) hclop)
        (skip_nl_seg hcl.1 hP.1 (segOk_headPack hP hclbad)))]
    rw [replAll_append hm P _ (skip_seg _ hcl.1
      (segOk_disj hP hclbad) (fun c h => hP.2.2.2 c h))]
    rw [replAll_match hm (matchMid_fire
      (by
        cases cl with
        | nil => exact absurd rfl hcl.1
        | cons ch ct =>
          exact nlTok_none_of_head (hcl.2 ch (by simp)).1
            (hcl.2 ch (by simp)).2.1)
      (nlTok_none_of_segOk hC' _))]
    have hrec := ih C' tail hC' hmid' htail
    show C ++ ((('\n' :: op) ++ ['\n']) ++ (P ++ (rClose tag ++
      closeSubst cl tag (C' ++ (renderMid op cl rest ++ tail))))) = _
    rw [hrec]
    simp [closedMid, rClose, eol]

/-- The open-substitution pass on the close-substituted interior: each
`"\n" open "\n"` boundary becomes the open replacement (a closing fence),
the inserted close replacements and the segments are copied. -/
theorem openPass_mid {op cl tag : List Char} (hop : delimOk op)
    (htag : ∀ c ∈ tag, c ≠ '\n' ∧ c ≠ '\r') :
    ∀ (mid : List (List Char × List Char)) (C tail tailOut : List Char),
      segOk (op ++ cl ++ ['`']) C →
      (∀ pc ∈ mid, segOk (op ++ cl ++ ['`']) pc.1 ∧
        segOk (op ++ cl ++ ['`']) pc.2) →
      openSubst op tail = tailOut →
      openSubst op (C ++ (closedMid op tag mid ++ tail))
        = C ++ (mdOfMid tag mid ++ tailOut) := by
  have hm : ∀ (s res : List Char), matchMid op s = some res →
      res.length < s.length := fun _ _ h => matchMid_length h
  have hopbad : ∀ c ∈ op, c ∈ op ++ cl ++ ['`'] := fun c h => mem_bad_left h
  intro mid
  induction mid with
  | nil =>
    intro C tail tailOut hC hmid htail
    show replAll (matchMid op) rOpen (C ++ ([] ++ tail)) = C ++ ([] ++ tailOut)
    rw [List.nil_append, List.nil_append]
    rw [replAll_append hm C tail (skip_seg tail hop.1
      (segOk_disj hC hopbad) (fun c h => hC.2.2.2 c h))]
    show C ++ openSubst op tail = C ++ tailOut
    rw [htail]
  | cons pc rest ih =>
    obtain ⟨P, C'⟩ := pc
    intro C tail tailOut hC hmid htail
    have hP := (hmid (P, C') (by simp)).1
    have hC' := (hmid (P, C') (by simp)).2
    have hmid' : ∀ pc ∈ rest, segOk (op ++ cl ++ ['`']) pc.1 ∧
        segOk (op ++ cl ++ ['`']) pc.2 :=
      fun pc h => hmid pc (List.mem_cons.2 (Or.inr h))
    have hshape : C ++ (closedMid op tag ((P, C') :: rest) ++ tail)
        = C ++ ('\n' :: (op ++ '\n' :: (P ++ (rClose tag ++
            (C' ++ (closedMid op tag rest ++ tail)))))) := by
      simp [closedMid]
    rw [hshape]
    show replAll (matchMid op) rOpen _ = _
    rw [replAll_append hm C _ (skip_seg _ hop.1
      (segOk_disj hC hopbad) (fun c h => hC.2.2.2 c h))]
    rw [replAll_match hm (matchMid_fire
      (by
        cases op with
        | nil => exact absurd rfl hop.1
        | cons oh ot =>
          exact nlTok_none_of_head (hop.2 oh (by simp)).1
            (hop.2 oh (by simp)).2.1)
      (nlTok_none_of_segOk hP _))]
    rw [replAll_append hm P _ (skip_seg _ hop.1
      (segOk_disj hP hopbad) (fun c h => hP.2.2.2 c h))]
    rw [replAll_append hm (rClose tag) _
      (skip_rClose ⟨hop.1, hop.2⟩ htag hC'.1 (segOk_headPack hC' hopbad))]
    have hrec := ih C' tail tailOut hC' hmid' htail
    show C ++ (rOpen ++ (P ++ (rClose tag ++
      openSubst op (C' ++ (closedMid op tag rest ++ tail))))) = _
    rw [hrec]
    simp [mdOfMid]

theorem suffix_getLast? {α : Type} {a T : List α} (h : a.IsSuffix T)
    (hne : a ≠ []) : T.getLast? = a.getLast? := by
  obtain ⟨pre, hpre⟩ := h
  rw [← hpre, List.getLast?_append_of_ne_nil pre hne]

/-- The leading strip does not fire on a text whose first character is not a
line break and not a character of the open delimiter. -/
theorem matchStart_none_wf {op T : List Char} (hop : op ≠ [])
    (hhead : ∀ c, T.head? = some c → (c ≠ '\n' ∧ c ≠ '\r') ∧ c ∉ op) :
    matchStart op T = none := by
  cases h : matchStart op T with
  | none => rfl
  | some res =>
    exfalso
    obtain ⟨u, w, heq, hurun, htok, -⟩ := matchStart_inversion h
    cases u with
    | nil =>
      rw [List.nil_append] at heq
      cases op with
      | nil => exact absurd rfl hop
      | cons oh ot =>
        have hh : T.head? = some oh := by rw [heq]; rfl
        exact (hhead oh hh).2 (List.mem_cons_self oh ot)
    | cons uh ut =>
      have hh : T.head? = some uh := by rw [heq]; rfl
      have hmem : uh ∈ uh :: ut := List.mem_cons_self uh ut
      rcases isNlRun_chars _ hurun uh hmem with rfl | rfl
      · exact (hhead '\n' hh).1.1 rfl
      · exact (hhead '\r' hh).1.2 rfl

/-- The trailing strip never fires on a text whose last character is not a
line break and not a character of the close delimiter. -/
theorem stripEnd_none_wf {cl T : List Char} (hclne : cl ≠ [])
    (hlast : ∀ c, T.getLast? = some c → (c ≠ '\n' ∧ c ≠ '\r') ∧ c ∉ cl) :
    stripEnd cl T = none := by
  apply stripEnd_none
  intro a hne hsfx
  cases h : endMatchHere cl a with
  | false => rfl
  | true =>
    exfalso
    obtain ⟨u, w, heq, hurun, hune, hwrun⟩ := endMatchHere_inversion h
    obtain ⟨c, hc⟩ := Option.isSome_iff_exists.1 (List.getLast?_isSome.2 hne)
    have hcT : T.getLast? = some c := by rw [suffix_getLast? hsfx hne]; exact hc
    rcases eq_or_ne w [] with rfl | hwne
    · rw [List.append_nil] at heq
      have hlastcl : a.getLast? = cl.getLast? := by
        rw [heq, List.getLast?_append_of_ne_nil _ hclne]
      rw [hc] at hlastcl
      have : c ∈ cl := List.mem_of_getLast?_eq_some hlastcl.symm
      exact ((hlast c hcT).2) this
    · obtain ⟨w', rfl⟩ := isNlRun_ends w hwrun hwne
      have hlastnl : a.getLast? = some '\n' := by
        rw [heq]
        simp [List.getLast?_append]
      rw [hc] at hlastnl
      cases hlastnl
      exact (hlast '\n' hcT).1.1 rfl

/-- Before the final `"\n" close` of a document ending in prose, the
trailing-strip pattern matches at no position: any match there would need
the rest of the text to be newlines. -/
theorem endMatch_skip_wf {cl PRE : List Char} (hcl : delimOk cl)
    (hlast : ∀ c, PRE.getLast? = some c → c ≠ '\n' ∧ c ≠ '\r') :
    ∀ a, a ≠ [] → a.IsSuffix PRE → endMatchHere cl (a ++ '\n' :: cl) = false := by
  intro a hne hsfx
  cases h : endMatchHere cl (a ++ '\n' :: cl) with
  | false => rfl
  | true =>
    exfalso
    obtain ⟨u, w, heq, hurun, hune, hwrun⟩ := endMatchHere_inversion h
    rcases eq_or_ne w [] with rfl | hwne
    · rw [List.append_nil] at heq
      have hu : a ++ ['\n'] = u := by
        apply List.append_cancel_right
        show (a ++ ['\n']) ++ cl = u ++ cl
        rw [← heq]
        simp
      obtain ⟨c, hc⟩ := Option.isSome_iff_exists.1 (List.getLast?_isSome.2 hne)
      have hcPRE : PRE.getLast? = some c := by
        rw [suffix_getLast? hsfx hne]; exact hc
      have hcmem : c ∈ u := by
        rw [← hu]
        exact List.mem_append.2 (Or.inl (List.mem_of_getLast?_eq_some hc))
      rcases isNlRun_chars u hurun c hcmem with rfl | rfl
      · exact (hlast _ hcPRE).1 rfl
      · exact (hlast _ hcPRE).2 rfl
    · obtain ⟨w', rfl⟩ := isNlRun_ends w hwrun hwne
      have h1 : (a ++ '\n' :: cl).getLast? = cl.getLast? := by
        rw [show ('\n' :: cl) = ['\n'] ++ cl from rfl,
          ← List.append_assoc, List.getLast?_append_of_ne_nil _ hcl.1]
      have h2 : (a ++ '\n' :: cl).getLast? = some '\n' := by
        rw [heq]
        simp [List.getLast?_append]
      rw [h1] at h2
      have : '\n' ∈ cl := List.mem_of_getLast?_eq_some h2
      exact (hcl.2 '\n' this).1 rfl

/-- The last character of the body `c1 ++ renderMid mid` is the last
character of its final code segment. -/
theorem bodyLast {op cl : List Char} :
    ∀ (mid : List (List Char × List Char)) (c1 : List Char),
      segOk (op ++ cl ++ ['`']) c1 →
      (∀ pc ∈ mid, segOk (op ++ cl ++ ['`']) pc.1 ∧
        segOk (op ++ cl ++ ['`']) pc.2) →
      ∀ c, (c1 ++ renderMid op cl mid).getLast? = some c →
        (c ≠ '\n' ∧ c ≠ '\r') ∧ c ∉ op ++ cl ++ ['`'] := by
  intro mid
  induction mid with
  | nil =>
    intro c1 hc1 _ c hc
    rw [show renderMid op cl [] = [] from rfl, List.append_nil] at hc
    exact ⟨hc1.2.2.2 c hc, fun hmem =>
      hc1.2.1 c (List.mem_of_getLast?_eq_some hc) hmem⟩
  | cons pc rest ih =>
    obtain ⟨P, C'⟩ := pc
    intro c1 hc1 hmid c hc
    have hC' := (hmid (P, C') (by simp)).2
    have hmid' : ∀ q ∈ rest, segOk (op ++ cl ++ ['`']) q.1 ∧
        segOk (op ++ cl ++ ['`']) q.2 :=
      fun q h => hmid q (List.mem_cons.2 (Or.inr h))
    have hshape : c1 ++ renderMid op cl ((P, C') :: rest)
        = (c1 ++ ('\n' :: (op ++ '\n' :: (P ++ '\n' :: (cl ++ ['\n'])))))
          ++ (C' ++ renderMid op cl rest) := by
      simp [renderMid, renderPair]
    rw [hshape] at hc
    rw [List.getLast?_append_of_ne_nil _ (by
      intro hnil
      rcases List.append_eq_nil.1 hnil with ⟨h1, -⟩
      exact hC'.1 h1)] at hc
    exact ih C' hC' hmid' c hc

/-- `endMatchHere` succeeds at the final `"\n" close`. -/
theorem endMatch_final {cl : List Char} :
    endMatchHere cl ('\n' :: cl) = true := by
  apply List.any_eq_true.2
  refine ⟨cl, ?_, ?_⟩
  · rw [show nlRunSuffixes ('\n' :: cl) = cl :: nlRunSuffixes cl from rfl]
    exact List.mem_cons_self cl _
  · rw [Bool.and_eq_true]
    exact ⟨List.isPrefixOf_iff_prefix.2 (List.prefix_refl cl),
      by rw [List.drop_length]; rfl⟩

theorem stripEnd_final {cl : List Char} :
    stripEnd cl ('\n' :: cl) = some [] := by
  show (if endMatchHere cl ('\n' :: cl) then some [] else _) = some []
  rw [endMatch_final]
  rfl

/-- A text starting with an admissible delimiter carries no line-break
token at its head. -/
theorem nlTok_none_of_delimOk {d : List Char} (hd : delimOk d)
    (X : List Char) : nlTok (d ++ X) = none := by
  cases d with
  | nil => exact absurd rfl hd.1
  | cons c t =>
    exact nlTok_none_of_head (hd.2 c (by simp)).1 (hd.2 c (by simp)).2.1

theorem replAll_id_of_skip {m : List Char → Option (List Char)}
    {r : List Char}
    (hm : ∀ s res, m s = some res → res.length < s.length)
    (s : List Char) (h : SkipOK m s []) : replAll m r s = s := by
  apply replAll_id hm
  intro a hne hsfx
  have ha := h a hne hsfx
  rwa [List.append_nil] at ha

/-- The full conversion of a well-formed literate document without leading
or trailing prose. -/
theorem convert_wf_nn {op cl tag : List Char} (hop : delimOk op)
    (hcl : delimOk cl) (hclop : ¬ cl.IsPrefix op)
    (htag : ∀ c ∈ tag, c ≠ '\n' ∧ c ≠ '\r')
    (c1 : List Char) (mid : List (List Char × List Char))
    (hc1 : segOk (op ++ cl ++ ['`']) c1)
    (hmid : ∀ pc ∈ mid, segOk (op ++ cl ++ ['`']) pc.1 ∧
      segOk (op ++ cl ++ ['`']) pc.2) :
    convertText op cl tag (renderDoc op cl none c1 mid none)
      = mdOfDoc tag none c1 mid none := by
  have hmc : ∀ (s res : List Char), matchMid cl s = some res →
      res.length < s.length := fun _ _ h => matchMid_length h
  have hmo : ∀ (s res : List Char), matchMid op s = some res →
      res.length < s.length := fun _ _ h => matchMid_length h
  have hclbad : ∀ c ∈ cl, c ∈ op ++ cl ++ ['`'] := fun c h => mem_bad_mid h
  have hopbad : ∀ c ∈ op, c ∈ op ++ cl ++ ['`'] := fun c h => mem_bad_left h
  have hH : ∀ c ∈ fence ++ tag, c ≠ '\n' ∧ c ≠ '\r' := by
    intro c hc
    rcases List.mem_append.1 hc with hc | hc
    · rw [mem_fence hc]; exact ⟨by decide, by decide⟩
    · exact htag c hc
  -- the raw document body
  have hT0 : renderDoc op cl none c1 mid none
      = c1 ++ renderMid op cl mid := by
    simp [renderDoc]
  -- step 1: no leading strip, prepend the opening fence
  have hstart : matchStart op (c1 ++ renderMid op cl mid) = none := by
    apply matchStart_none_wf hop.1
    intro c hcH
    apply segOk_headPack hc1 hopbad c
    cases c1 with
    | nil => exact absurd rfl hc1.1
    | cons x xs => exact hcH
  have e1 : startStep op tag (c1 ++ renderMid op cl mid)
      = fence ++ tag ++ eol ++ (c1 ++ renderMid op cl mid) := by
    simp only [startStep, hstart]
  -- step 2: no trailing strip, append the closing fence
  have hlast1 : ∀ c, (fence ++ tag ++ eol ++ (c1 ++ renderMid op cl mid)).getLast?
      = some c → (c ≠ '\n' ∧ c ≠ '\r') ∧ c ∉ cl := by
    intro c hc
    rw [List.getLast?_append_of_ne_nil _ (by
      intro hnil
      rcases List.append_eq_nil.1 hnil with ⟨h1, -⟩
      exact hc1.1 h1)] at hc
    have := bodyLast mid c1 hc1 hmid c hc
    exact ⟨this.1, fun hmem => this.2 (hclbad c hmem)⟩
  have hend : stripEnd cl (fence ++ tag ++ eol ++ (c1 ++ renderMid op cl mid))
      = none := stripEnd_none_wf hcl.1 hlast1
  have e2 : endStep cl (fence ++ tag ++ eol ++ (c1 ++ renderMid op cl mid))
      = (fence ++ tag) ++ (['\n'] ++ (c1 ++ (renderMid op cl mid
          ++ '\n' :: fence))) := by
    simp only [endStep, hend]
    simp [eol]
  -- step 3: close substitution
  have htailc : closeSubst cl tag ('\n' :: fence) = '\n' :: fence := by
    apply replAll_id hmc
    intro a hne hsfx
    have := skip_nl_fence ⟨hcl.1, hcl.2⟩ a hne hsfx
    rwa [List.append_nil] at this
  have e3 : closeSubst cl tag ((fence ++ tag) ++ (['\n'] ++ (c1 ++
        (renderMid op cl mid ++ '\n' :: fence))))
      = (fence ++ tag) ++ (['\n'] ++ (c1 ++ (closedMid op tag mid
          ++ '\n' :: fence))) := by
    show replAll (matchMid cl) (rClose tag) _ = _
    rw [replAll_append hmc (fence ++ tag) _
      (skip_nonNl (fun s h => matchMid_none_of_head h) hH _)]
    rw [replAll_append hmc ['\n'] _ (skip_nl_seg hcl.1 hc1.1
      (segOk_headPack hc1 hclbad))]
    show (fence ++ tag) ++ (['\n'] ++ closeSubst cl tag (c1 ++
      (renderMid op cl mid ++ '\n' :: fence))) = _
    rw [closePass_mid hop hcl hclop mid c1 ('\n' :: fence) hc1 hmid htailc]
  -- step 4: open substitution
  have htailo : openSubst op ('\n' :: fence) = '\n' :: fence := by
    apply replAll_id hmo
    intro a hne hsfx
    have := skip_nl_fence ⟨hop.1, hop.2⟩ a hne hsfx
    rwa [List.append_nil] at this
  have e4 : openSubst op ((fence ++ tag) ++ (['\n'] ++ (c1 ++
        (closedMid op tag mid ++ '\n' :: fence))))
      = (fence ++ tag) ++ (['\n'] ++ (c1 ++ (mdOfMid tag mid
          ++ '\n' :: fence))) := by
    show replAll (matchMid op) rOpen _ = _
    rw [replAll_append hmo (fence ++ tag) _
      (skip_nonNl (fun s h => matchMid_none_of_head h) hH _)]
    rw [replAll_append hmo ['\n'] _ (skip_nl_seg hop.1 hc1.1
      (segOk_headPack hc1 hopbad))]
    show (fence ++ tag) ++ (['\n'] ++ openSubst op (c1 ++
      (closedMid op tag mid ++ '\n' :: fence))) = _
    rw [openPass_mid hop htag mid c1 ('\n' :: fence) ('\n' :: fence)
      hc1 hmid htailo]
  show openSubst op (closeSubst cl tag (endStep cl (startStep op tag _))) = _
  rw [hT0, e1, e2, e3, e4]
  simp [mdOfDoc, eol]

/-- The full conversion of a well-formed literate document with leading
prose and no trailing prose. -/
theorem convert_wf_sn {op cl tag : List Char} (hop : delimOk op)
    (hcl : delimOk cl) (hclop : ¬ cl.IsPrefix op)
    (htag : ∀ c ∈ tag, c ≠ '\n' ∧ c ≠ '\r')
    (P0 c1 : List Char) (mid : List (List Char × List Char))
    (hP0 : segOk (op ++ cl ++ ['`']) P0)
    (hc1 : segOk (op ++ cl ++ ['`']) c1)
    (hmid : ∀ pc ∈ mid, segOk (op ++ cl ++ ['`']) pc.1 ∧
      segOk (op ++ cl ++ ['`']) pc.2) :
    convertText op cl tag (renderDoc op cl (some P0) c1 mid none)
      = mdOfDoc tag (some P0) c1 mid none := by
  have hmc : ∀ (s res : List Char), matchMid cl s = some res →
      res.length < s.length := fun _ _ h => matchMid_length h
  have hmo : ∀ (s res : List Char), matchMid op s = some res →
      res.length < s.length := fun _ _ h => matchMid_length h
  have hclbad : ∀ c ∈ cl, c ∈ op ++ cl ++ ['`'] := fun c h => mem_bad_mid h
  have hopbad : ∀ c ∈ op, c ∈ op ++ cl ++ ['`'] := fun c h => mem_bad_left h
  -- the raw document in leading-strip shape
  have hT0 : renderDoc op cl (some P0) c1 mid none
      = op ++ '\n' :: (P0 ++ '\n' :: (cl ++ '\n' ::
          (c1 ++ renderMid op cl mid))) := by
    simp [renderDoc]
  -- step 1: the leading prose block is stripped
  have e1 : startStep op tag (op ++ '\n' :: (P0 ++ '\n' :: (cl ++ '\n' ::
        (c1 ++ renderMid op cl mid))))
      = P0 ++ '\n' :: (cl ++ '\n' :: (c1 ++ renderMid op cl mid)) := by
    simp only [startStep,
      matchStart_fire (nlTok_none_of_delimOk hop _)
        (nlTok_none_of_segOk hP0 _)]
  -- step 2: no trailing strip, append the closing fence
  have hlastx : ∀ c, (P0 ++ '\n' :: (cl ++ '\n' ::
        (c1 ++ renderMid op cl mid))).getLast?
      = some c → (c ≠ '\n' ∧ c ≠ '\r') ∧ c ∉ cl := by
    intro c hc
    rw [show P0 ++ '\n' :: (cl ++ '\n' :: (c1 ++ renderMid op cl mid))
        = (P0 ++ '\n' :: (cl ++ ['\n'])) ++ (c1 ++ renderMid op cl mid)
      from by simp] at hc
    rw [List.getLast?_append_of_ne_nil _ (by
      intro hnil
      rcases List.append_eq_nil.1 hnil with ⟨h1, -⟩
      exact hc1.1 h1)] at hc
    have := bodyLast mid c1 hc1 hmid c hc
    exact ⟨this.1, fun hmem => this.2 (hclbad c hmem)⟩
  have hend : stripEnd cl (P0 ++ '\n' :: (cl ++ '\n' ::
        (c1 ++ renderMid op cl mid))) = none :=
    stripEnd_none_wf hcl.1 hlastx
  have e2 : endStep cl (P0 ++ '\n' :: (cl ++ '\n' ::
        (c1 ++ renderMid op cl mid)))
      = P0 ++ ('\n' :: (cl ++ '\n' :: (c1 ++ (renderMid op cl mid
          ++ '\n' :: fence)))) := by
    simp only [endStep, hend]
    simp [eol]
  -- step 3: close substitution fires at the retained close delimiter
  have htailc : closeSubst cl tag ('\n' :: fence) = '\n' :: fence := by
    apply replAll_id hmc
    intro a hne hsfx
    have ha := skip_nl_fence ⟨hcl.1, hcl.2⟩ a hne hsfx
    rwa [List.append_nil] at ha
  have e3 : closeSubst cl tag (P0 ++ ('\n' :: (cl ++ '\n' ::
        (c1 ++ (renderMid op cl mid ++ '\n' :: fence)))))
      = P0 ++ (rClose tag ++ (c1 ++ (closedMid op tag mid
          ++ '\n' :: fence))) := by
    show replAll (matchMid cl) (rClose tag) _ = _
    rw [replAll_append hmc P0 _
      (skip_seg _ hcl.1 (segOk_disj hP0 hclbad) hP0.2.2.2)]
    rw [replAll_match hmc (matchMid_fire (nlTok_none_of_delimOk hcl _)
      (nlTok_none_of_segOk hc1 _))]
    show P0 ++ (rClose tag ++ closeSubst cl tag (c1 ++
      (renderMid op cl mid ++ '\n' :: fence))) = _
    rw [closePass_mid hop hcl hclop mid c1 ('\n' :: fence) hc1 hmid htailc]
  -- step 4: open substitution
  have htailo : openSubst op ('\n' :: fence) = '\n' :: fence := by
    apply replAll_id hmo
    intro a hne hsfx
    have ha := skip_nl_fence ⟨hop.1, hop.2⟩ a hne hsfx
    rwa [List.append_nil] at ha
  have e4 : openSubst op (P0 ++ (rClose tag ++ (c1 ++
        (closedMid op tag mid ++ '\n' :: fence))))
      = P0 ++ (rClose tag ++ (c1 ++ (mdOfMid tag mid
          ++ '\n' :: fence))) := by
    show replAll (matchMid op) rOpen _ = _
    rw [replAll_append hmo P0 _
      (skip_seg _ hop.1 (segOk_disj hP0 hopbad) hP0.2.2.2)]
    rw [replAll_append hmo (rClose tag) _
      (skip_rClose hop htag hc1.1 (segOk_headPack hc1 hopbad))]
    show P0 ++ (rClose tag ++ openSubst op (c1 ++
      (closedMid op tag mid ++ '\n' :: fence))) = _
    rw [openPass_mid hop htag mid c1 ('\n' :: fence) ('\n' :: fence)
      hc1 hmid htailo]
  show openSubst op (closeSubst cl tag (endStep cl (startStep op tag _))) = _
  rw [hT0, e1, e2, e3, e4]
  simp [mdOfDoc, eol]

/-- The full conversion of a well-formed literate document with trailing
prose and no leading prose. -/
theorem convert_wf_ns {op cl tag : List Char} (hop : delimOk op)
    (hcl : delimOk cl) (hclop : ¬ cl.IsPrefix op)
    (htag : ∀ c ∈ tag, c ≠ '\n' ∧ c ≠ '\r')
    (c1 Pt : List Char) (mid : List (List Char × List Char))
    (hc1 : segOk (op ++ cl ++ ['`']) c1)
    (hPt : segOk (op ++ cl ++ ['`']) Pt)
    (hmid : ∀ pc ∈ mid, segOk (op ++ cl ++ ['`']) pc.1 ∧
      segOk (op ++ cl ++ ['`']) pc.2) :
    convertText op cl tag (renderDoc op cl none c1 mid (some Pt))
      = mdOfDoc tag none c1 mid (some Pt) := by
  have hmc : ∀ (s res : List Char), matchMid cl s = some res →
      res.length < s.length := fun _ _ h => matchMid_length h
  have hmo : ∀ (s res : List Char), matchMid op s = some res →
      res.length < s.length := fun _ _ h => matchMid_length h
  have hclbad : ∀ c ∈ cl, c ∈ op ++ cl ++ ['`'] := fun c h => mem_bad_mid h
  have hopbad : ∀ c ∈ op, c ∈ op ++ cl ++ ['`'] := fun c h => mem_bad_left h
  have hH : ∀ c ∈ fence ++ tag, c ≠ '\n' ∧ c ≠ '\r' := by
    intro c hc
    rcases List.mem_append.1 hc with hc | hc
    · rw [mem_fence hc]; exact ⟨by decide, by decide⟩
    · exact htag c hc
  have hPtTok : nlTok Pt = none := by
    have h := nlTok_none_of_segOk hPt []
    rwa [List.append_nil] at h
  -- the raw document body
  have hT0 : renderDoc op cl none c1 mid (some Pt)
      = c1 ++ (renderMid op cl mid
          ++ '\n' :: (op ++ '\n' :: (Pt ++ '\n' :: cl))) := by
    simp [renderDoc]
  -- step 1: no leading strip, prepend the opening fence
  have hstart : matchStart op (c1 ++ (renderMid op cl mid
      ++ '\n' :: (op ++ '\n' :: (Pt ++ '\n' :: cl)))) = none := by
    apply matchStart_none_wf hop.1
    intro c hcH
    apply segOk_headPack hc1 hopbad c
    cases c1 with
    | nil => exact absurd rfl hc1.1
    | cons x xs => exact hcH
  have e1 : startStep op tag (c1 ++ (renderMid op cl mid
        ++ '\n' :: (op ++ '\n' :: (Pt ++ '\n' :: cl))))
      = fence ++ tag ++ eol ++ (c1 ++ (renderMid op cl mid
          ++ '\n' :: (op ++ '\n' :: (Pt ++ '\n' :: cl)))) := by
    simp only [startStep, hstart]
  -- step 2: the trailing prose block is stripped
  have hlastPRE : ∀ c, ((fence ++ tag) ++ (['\n'] ++ (c1 ++
        (renderMid op cl mid ++ '\n' :: (op ++ '\n' :: Pt))))).getLast?
      = some c → c ≠ '\n' ∧ c ≠ '\r' := by
    intro c hc
    rw [show (fence ++ tag) ++ (['\n'] ++ (c1 ++ (renderMid op cl mid
        ++ '\n' :: (op ++ '\n' :: Pt))))
        = ((fence ++ tag) ++ (['\n'] ++ (c1 ++ (renderMid op cl mid
            ++ '\n' :: (op ++ ['\n']))))) ++ Pt from by simp] at hc
    rw [List.getLast?_append_of_ne_nil _ hPt.1] at hc
    exact hPt.2.2.2 c hc
  have hstrip : stripEnd cl (((fence ++ tag) ++ (['\n'] ++ (c1 ++
        (renderMid op cl mid ++ '\n' :: (op ++ '\n' :: Pt))))) ++ '\n' :: cl)
      = some ((fence ++ tag) ++ (['\n'] ++ (c1 ++
          (renderMid op cl mid ++ '\n' :: (op ++ '\n' :: Pt))))) := by
    rw [stripEnd_skip _ _ (endMatch_skip_wf hcl hlastPRE), stripEnd_final]
    simp
  have e2 : endStep cl (fence ++ tag ++ eol ++ (c1 ++ (renderMid op cl mid
        ++ '\n' :: (op ++ '\n' :: (Pt ++ '\n' :: cl)))))
      = (fence ++ tag) ++ (['\n'] ++ (c1 ++
          (renderMid op cl mid ++ '\n' :: (op ++ '\n' :: Pt)))) := by
    rw [show fence ++ tag ++ eol ++ (c1 ++ (renderMid op cl mid
        ++ '\n' :: (op ++ '\n' :: (Pt ++ '\n' :: cl))))
        = ((fence ++ tag) ++ (['\n'] ++ (c1 ++ (renderMid op cl mid
            ++ '\n' :: (op ++ '\n' :: Pt))))) ++ '\n' :: cl
      from by simp [eol]]
    simp only [endStep, hstrip]
  -- step 3: close substitution
  have htailc : closeSubst cl tag ('\n' :: (op ++ '\n' :: Pt))
      = '\n' :: (op ++ '\n' :: Pt) := by
    apply replAll_id_of_skip hmc
    have h1 : SkipOK (matchMid cl) ('\n' :: op) (('\n' :: Pt) ++ []) :=
      skip_nl_delim (fun c h => ⟨(hcl.2 c h).1, (hcl.2 c h).2.1⟩) hcl.1
        hop.1 (fun c h => ⟨(hop.2 c h).1, (hop.2 c h).2.1⟩) hclop
    have h3 : SkipOK (matchMid cl) ['\n'] (Pt ++ []) :=
      skip_nl_seg hcl.1 hPt.1 (segOk_headPack hPt hclbad)
    have h4 : SkipOK (matchMid cl) Pt [] :=
      skip_seg [] hcl.1 (segOk_disj hPt hclbad) hPt.2.2.2
    have h2 : SkipOK (matchMid cl) ('\n' :: Pt) [] := SkipOK_append h3 h4
    exact SkipOK_append h1 h2
  have e3 : closeSubst cl tag ((fence ++ tag) ++ (['\n'] ++ (c1 ++
        (renderMid op cl mid ++ '\n' :: (op ++ '\n' :: Pt)))))
      = (fence ++ tag) ++ (['\n'] ++ (c1 ++ (closedMid op tag mid
          ++ '\n' :: (op ++ '\n' :: Pt)))) := by
    show replAll (matchMid cl) (rClose tag) _ = _
    rw [replAll_append hmc (fence ++ tag) _
      (skip_nonNl (fun s h => matchMid_none_of_head h) hH _)]
    rw [replAll_append hmc ['\n'] _ (skip_nl_seg hcl.1 hc1.1
      (segOk_headPack hc1 hclbad))]
    show (fence ++ tag) ++ (['\n'] ++ closeSubst cl tag (c1 ++
      (renderMid op cl mid ++ '\n' :: (op ++ '\n' :: Pt)))) = _
    rw [closePass_mid hop hcl hclop mid c1 ('\n' :: (op ++ '\n' :: Pt))
      hc1 hmid htailc]
  -- step 4: open substitution fires at the retained open delimiter
  have htailo : openSubst op ('\n' :: (op ++ '\n' :: Pt))
      = rOpen ++ Pt := by
    show replAll (matchMid op) rOpen _ = _
    rw [replAll_match hmo
      (matchMid_fire (nlTok_none_of_delimOk hop _) hPtTok)]
    rw [replAll_id_of_skip hmo Pt
      (skip_seg [] hop.1 (segOk_disj hPt hopbad) hPt.2.2.2)]
  have e4 : openSubst op ((fence ++ tag) ++ (['\n'] ++ (c1 ++
        (closedMid op tag mid ++ '\n' :: (op ++ '\n' :: Pt)))))
      = (fence ++ tag) ++ (['\n'] ++ (c1 ++ (mdOfMid tag mid
          ++ (rOpen ++ Pt)))) := by
    show replAll (matchMid op) rOpen _ = _
    rw [replAll_append hmo (fence ++ tag) _
      (skip_nonNl (fun s h => matchMid_none_of_head h) hH _)]
    rw [replAll_append hmo ['\n'] _ (skip_nl_seg hop.1 hc1.1
      (segOk_headPack hc1 hopbad))]
    show (fence ++ tag) ++ (['\n'] ++ openSubst op (c1 ++
      (closedMid op tag mid ++ '\n' :: (op ++ '\n' :: Pt)))) = _
    rw [openPass_mid hop htag mid c1 ('\n' :: (op ++ '\n' :: Pt))
      (rOpen ++ Pt) hc1 hmid htailo]
  show openSubst op (closeSubst cl tag (endStep cl (startStep op tag _))) = _
  rw [hT0, e1, e2, e3, e4]
  simp [mdOfDoc, eol]

/-- The full conversion of a well-formed literate document with both
leading and trailing prose. -/
theorem convert_wf_ss {op cl tag : List Char} (hop : delimOk op)
    (hcl : delimOk cl) (hclop : ¬ cl.IsPrefix op)
    (htag : ∀ c ∈ tag, c ≠ '\n' ∧ c ≠ '\r')
    (P0 c1 Pt : List Char) (mid : List (List Char × List Char))
    (hP0 : segOk (op ++ cl ++ ['`']) P0)
    (hc1 : segOk (op ++ cl ++ ['`']) c1)
    (hPt : segOk (op ++ cl ++ ['`']) Pt)
    (hmid : ∀ pc ∈ mid, segOk (op ++ cl ++ ['`']) pc.1 ∧
      segOk (op ++ cl ++ ['`']) pc.2) :
    convertText op cl tag (renderDoc op cl (some P0) c1 mid (some Pt))
      = mdOfDoc tag (some P0) c1 mid (some Pt) := by
  have hmc : ∀ (s res : List Char), matchMid cl s = some res →
      res.length < s.length := fun _ _ h => matchMid_length h
  have hmo : ∀ (s res : List Char), matchMid op s = some res →
      res.length < s.length := fun _ _ h => matchMid_length h
  have hclbad : ∀ c ∈ cl, c ∈ op ++ cl ++ ['`'] := fun c h => mem_bad_mid h
  have hopbad : ∀ c ∈ op, c ∈ op ++ cl ++ ['`'] := fun c h => mem_bad_left h
  have hPtTok : nlTok Pt = none := by
    have h := nlTok_none_of_segOk hPt []
    rwa [List.append_nil] at h
  -- the raw document in leading-strip shape
  have hT0 : renderDoc op cl (some P0) c1 mid (some Pt)
      = op ++ '\n' :: (P0 ++ '\n' :: (cl ++ '\n' :: (c1 ++
          (renderMid op cl mid
            ++ '\n' :: (op ++ '\n' :: (Pt ++ '\n' :: cl)))))) := by
    simp [renderDoc]
  -- step 1: the leading prose block is stripped
  have e1 : startStep op tag (op ++ '\n' :: (P0 ++ '\n' :: (cl ++ '\n' ::
        (c1 ++ (renderMid op cl mid
          ++ '\n' :: (op ++ '\n' :: (Pt ++ '\n' :: cl)))))))
      = P0 ++ '\n' :: (cl ++ '\n' :: (c1 ++ (renderMid op cl mid
          ++ '\n' :: (op ++ '\n' :: (Pt ++ '\n' :: cl))))) := by
    simp only [startStep,
      matchStart_fire (nlTok_none_of_delimOk hop _)
        (nlTok_none_of_segOk hP0 _)]
  -- step 2: the trailing prose block is stripped
  have hlastPRE : ∀ c, (P0 ++ ('\n' :: (cl ++ '\n' :: (c1 ++
        (renderMid op cl mid ++ '\n' :: (op ++ '\n' :: Pt)))))).getLast?
      = some c → c ≠ '\n' ∧ c ≠ '\r' := by
    intro c hc
    rw [show P0 ++ ('\n' :: (cl ++ '\n' :: (c1 ++ (renderMid op cl mid
        ++ '\n' :: (op ++ '\n' :: Pt)))))
        = (P0 ++ ('\n' :: (cl ++ '\n' :: (c1 ++ (renderMid op cl mid
            ++ '\n' :: (op ++ ['\n'])))))) ++ Pt from by simp] at hc
    rw [List.getLast?_append_of_ne_nil _ hPt.1] at hc
    exact hPt.2.2.2 c hc
  have hstrip : stripEnd cl ((P0 ++ ('\n' :: (cl ++ '\n' :: (c1 ++
        (renderMid op cl mid ++ '\n' :: (op ++ '\n' :: Pt))))))
          ++ '\n' :: cl)
      = some (P0 ++ ('\n' :: (cl ++ '\n' :: (c1 ++
          (renderMid op cl mid ++ '\n' :: (op ++ '\n' :: Pt)))))) := by
    rw [stripEnd_skip _ _ (endMatch_skip_wf hcl hlastPRE), stripEnd_final]
    simp
  have e2 : endStep cl (P0 ++ '\n' :: (cl ++ '\n' :: (c1 ++
        (renderMid op cl mid
          ++ '\n' :: (op ++ '\n' :: (Pt ++ '\n' :: cl))))))
      = P0 ++ ('\n' :: (cl ++ '\n' :: (c1 ++
          (renderMid op cl mid ++ '\n' :: (op ++ '\n' :: Pt))))) := by
    rw [show P0 ++ '\n' :: (cl ++ '\n' :: (c1 ++ (renderMid op cl mid
        ++ '\n' :: (op ++ '\n' :: (Pt ++ '\n' :: cl)))))
        = (P0 ++ ('\n' :: (cl ++ '\n' :: (c1 ++ (renderMid op cl mid
            ++ '\n' :: (op ++ '\n' :: Pt)))))) ++ '\n' :: cl
      from by simp]
    simp only [endStep, hstrip]
  -- step 3: close substitution fires at the retained close delimiter
  have htailc : closeSubst cl tag ('\n' :: (op ++ '\n' :: Pt))
      = '\n' :: (op ++ '\n' :: Pt) := by
    apply replAll_id_of_skip hmc
    have h1 : SkipOK (matchMid cl) ('\n' :: op) (('\n' :: Pt) ++ []) :=
      skip_nl_delim (fun c h => ⟨(hcl.2 c h).1, (hcl.2 c h).2.1⟩) hcl.1
        hop.1 (fun c h => ⟨(hop.2 c h).1, (hop.2 c h).2.1⟩) hclop
    have h3 : SkipOK (matchMid cl) ['\n'] (Pt ++ []) :=
      skip_nl_seg hcl.1 hPt.1 (segOk_headPack hPt hclbad)
    have h4 : SkipOK (matchMid cl) Pt [] :=
      skip_seg [] hcl.1 (segOk_disj hPt hclbad) hPt.2.2.2
    have h2 : SkipOK (matchMid cl) ('\n' :: Pt) [] := SkipOK_append h3 h4
    exact SkipOK_append h1 h2
  have e3 : closeSubst cl tag (P0 ++ ('\n' :: (cl ++ '\n' :: (c1 ++
        (renderMid op cl mid ++ '\n' :: (op ++ '\n' :: Pt))))))
      = P0 ++ (rClose tag ++ (c1 ++ (closedMid op tag mid
          ++ '\n' :: (op ++ '\n' :: Pt)))) := by
    show replAll (matchMid cl) (rClose tag) _ = _
    rw [replAll_append hmc P0 _
      (skip_seg _ hcl.1 (segOk_disj hP0 hclbad) hP0.2.2.2)]
    rw [replAll_match hmc (matchMid_fire (nlTok_none_of_delimOk hcl _)
      (nlTok_none_of_segOk hc1 _))]
    show P0 ++ (rClose tag ++ closeSubst cl tag (c1 ++
      (renderMid op cl mid ++ '\n' :: (op ++ '\n' :: Pt)))) = _
    rw [closePass_mid hop hcl hclop mid c1 ('\n' :: (op ++ '\n' :: Pt))
      hc1 hmid htailc]
  -- step 4: open substitution fires at the retained open delimiter
  have htailo : openSubst op ('\n' :: (op ++ '\n' :: Pt))
      = rOpen ++ Pt := by
    show replAll (matchMid op) rOpen _ = _
    rw [replAll_match hmo
      (matchMid_fire (nlTok_none_of_delimOk hop _) hPtTok)]
    rw [replAll_id_of_skip hmo Pt
      (skip_seg [] hop.1 (segOk_disj hPt hopbad) hPt.2.2.2)]
  have e4 : openSubst op (P0 ++ (rClose tag ++ (c1 ++
        (closedMid op tag mid ++ '\n' :: (op ++ '\n' :: Pt)))))
      = P0 ++ (rClose tag ++ (c1 ++ (mdOfMid tag mid
          ++ (rOpen ++ Pt)))) := by
    show replAll (matchMid op) rOpen _ = _
    rw [replAll_append hmo P0 _
      (skip_seg _ hop.1 (segOk_disj hP0 hopbad) hP0.2.2.2)]
    rw [replAll_append hmo (rClose tag) _
      (skip_rClose hop htag hc1.1 (segOk_headPack hc1 hopbad))]
    show P0 ++ (rClose tag ++ openSubst op (c1 ++
      (closedMid op tag mid ++ '\n' :: (op ++ '\n' :: Pt)))) = _
    rw [openPass_mid hop htag mid c1 ('\n' :: (op ++ '\n' :: Pt))
      (rOpen ++ Pt) hc1 hmid htailo]
  show openSubst op (closeSubst cl tag (endStep cl (startStep op tag _))) = _
  rw [hT0, e1, e2, e3, e4]
  simp [mdOfDoc]

/-! ## Line splitting and fence-line counting -/

theorem linesOf_cons (c : Char) (s : List Char) :
    linesOf (c :: s) = if c = '\n' then [] :: linesOf s
      else (c :: (linesOf s).headD []) :: (linesOf s).tail := rfl

theorem linesOf_ne_nil : ∀ s : List Char, linesOf s ≠ [] := by
  intro s
  cases s with
  | nil => simp [linesOf]
  | cons c t =>
    rw [linesOf_cons]
    split <;> simp

/-- `linesOf` splits at each newline. -/
theorem linesOf_append_nl (A B : List Char) :
    linesOf (A ++ '\n' :: B) = linesOf A ++ linesOf B := by
  induction A with
  | nil =>
    rw [List.nil_append, linesOf_cons]
    simp [linesOf]
  | cons c A' ih =>
    show linesOf (c :: (A' ++ '\n' :: B)) = linesOf (c :: A') ++ linesOf B
    rw [linesOf_cons, linesOf_cons, ih]
    by_cases hc : c = '\n'
    · simp [hc]
    · simp only [if_neg hc]
      cases hA : linesOf A' with
      | nil => exact absurd hA (linesOf_ne_nil A')
      | cons h t => simp

/-- A newline-free text is a single line. -/
theorem linesOf_no_nl : ∀ A : List Char, (∀ c ∈ A, c ≠ '\n') →
    linesOf A = [A] := by
  intro A
  induction A with
  | nil => simp [linesOf]
  | cons c A' ih =>
    intro h
    rw [linesOf_cons, if_neg (h c (by simp)),
      ih (fun d hd => h d (by simp [hd]))]
    rfl

/-- Every character of a line comes from the split text. -/
theorem mem_linesOf_mem {c : Char} : ∀ {A l : List Char},
    l ∈ linesOf A → c ∈ l → c ∈ A := by
  intro A
  induction A with
  | nil =>
    intro l hl hc
    simp [linesOf] at hl
    rw [hl] at hc
    exact absurd hc (List.not_mem_nil c)
  | cons a A' ih =>
    intro l hl hc
    rw [linesOf_cons] at hl
    cases hA : linesOf A' with
    | nil => exact absurd hA (linesOf_ne_nil A')
    | cons h t =>
      rw [hA] at hl
      simp only [List.headD_cons, List.tail_cons] at hl
      split at hl
      · rcases List.mem_cons.1 hl with rfl | hl'
        · exact absurd hc (List.not_mem_nil c)
        · have hm : l ∈ linesOf A' := by rw [hA]; exact hl'
          exact List.mem_cons.2 (Or.inr (ih hm hc))
      · rcases List.mem_cons.1 hl with rfl | hl'
        · rcases List.mem_cons.1 hc with rfl | hc'
          · simp
          · have hm : h ∈ linesOf A' := by
              rw [hA]; exact List.mem_cons.2 (Or.inl rfl)
            exact List.mem_cons.2 (Or.inr (ih hm hc'))
        · have hm : l ∈ linesOf A' := by
            rw [hA]; exact List.mem_cons.2 (Or.inr hl')
          exact List.mem_cons.2 (Or.inr (ih hm hc))

theorem isFenceLine_true_iff {tag l : List Char} :
    isFenceLine tag l = true ↔ (l = openFenceLine tag ∨ l = closeFenceLine) := by
  simp [isFenceLine]

theorem fenceLines_nil {tag : List Char} : fenceLines tag [] = [] := by
  show List.filter _ [[]] = []
  rw [List.filter_cons]
  have hiff : ¬ ([] = openFenceLine tag ∨ ([] : List Char) = closeFenceLine) := by
    rintro (h | h)
    · exact absurd h.symm (by
        rw [show openFenceLine tag = '`' :: ('`' :: ('`' :: ([] : List Char))) ++ tag
          from rfl]
        simp)
    · exact absurd h (by decide)
  rw [if_neg (by
    intro hb
    exact hiff (isFenceLine_true_iff.1 hb))]
  rfl

theorem fenceLines_append_nl {tag : List Char} (A B : List Char) :
    fenceLines tag (A ++ '\n' :: B) = fenceLines tag A ++ fenceLines tag B := by
  show List.filter _ _ = _
  rw [linesOf_append_nl, List.filter_append]
  rfl

theorem fenceLines_cons_nl {tag B : List Char} :
    fenceLines tag ('\n' :: B) = fenceLines tag B := by
  have h : fenceLines tag ([] ++ '\n' :: B)
      = fenceLines tag [] ++ fenceLines tag B := fenceLines_append_nl [] B
  rw [List.nil_append, fenceLines_nil, List.nil_append] at h
  exact h

/-- A backtick-free text carries no fence marker line. -/
theorem fenceLines_seg {tag A : List Char} (h : ∀ c ∈ A, c ≠ '`') :
    fenceLines tag A = [] := by
  apply List.filter_eq_nil_iff.2
  intro l hl hp
  have htick : '`' ∈ l := by
    rcases isFenceLine_true_iff.1 hp with rfl | rfl
    · rw [show openFenceLine tag = '`' :: ('`' :: ('`' :: ([] : List Char))) ++ tag
        from rfl]
      simp
    · decide
  exact h '`' (mem_linesOf_mem hl htick) rfl

theorem fenceLines_openline {tag : List Char} (htag : ∀ c ∈ tag, c ≠ '\n') :
    fenceLines tag (fence ++ tag) = [openFenceLine tag] := by
  show List.filter _ _ = _
  rw [linesOf_no_nl (fence ++ tag) (by
    intro c hc
    rcases List.mem_append.1 hc with hc | hc
    · rw [mem_fence hc]; decide
    · exact htag c hc)]
  rw [List.filter_cons, if_pos (show isFenceLine tag (fence ++ tag) = true
    from isFenceLine_true_iff.2 (Or.inl rfl))]
  rfl

theorem fenceLines_closeline {tag : List Char} :
    fenceLines tag fence = [closeFenceLine] := by
  show List.filter _ _ = _
  rw [linesOf_no_nl fence (by intro c hc; rw [mem_fence hc]; decide)]
  rw [List.filter_cons, if_pos (show isFenceLine tag fence = true
    from isFenceLine_true_iff.2 (Or.inr rfl))]
  rfl

theorem fenceLines_skip_seg {tag A B : List Char} (h : ∀ c ∈ A, c ≠ '`') :
    fenceLines tag (A ++ '\n' :: B) = fenceLines tag B := by
  rw [fenceLines_append_nl, fenceLines_seg h, List.nil_append]

theorem fenceLines_open_cons {tag B : List Char}
    (htag : ∀ c ∈ tag, c ≠ '\n') :
    fenceLines tag ((fence ++ tag) ++ '\n' :: B)
      = openFenceLine tag :: fenceLines tag B := by
  rw [fenceLines_append_nl, fenceLines_openline htag]
  rfl

theorem fenceLines_close_cons {tag B : List Char} :
    fenceLines tag (fence ++ '\n' :: B)
      = closeFenceLine :: fenceLines tag B := by
  rw [fenceLines_append_nl, fenceLines_closeline]
  rfl

/-- The fence lines of the interior alternation: each interior pair closes
the running code block and opens a new one. -/
theorem fenceLines_seg_mid {tag : List Char} (htag : ∀ c ∈ tag, c ≠ '\n') :
    ∀ (mid : List (List Char × List Char)) (C S : List Char),
      (∀ c ∈ C, c ≠ '`') →
      (∀ pc ∈ mid, (∀ c ∈ pc.1, c ≠ '`') ∧ (∀ c ∈ pc.2, c ≠ '`')) →
      fenceLines tag (C ++ (mdOfMid tag mid ++ '\n' :: S))
        = (List.replicate mid.length
            [closeFenceLine, openFenceLine tag]).flatten
          ++ fenceLines tag S := by
  intro mid
  induction mid with
  | nil =>
    intro C S hC _
    rw [show C ++ (mdOfMid tag [] ++ '\n' :: S) = C ++ '\n' :: S
      from by simp [mdOfMid]]
    rw [fenceLines_skip_seg hC]
    simp
  | cons pc rest ih =>
    obtain ⟨P, Cq⟩ := pc
    intro C S hC hmid
    have hP := (hmid (P, Cq) (by simp)).1
    have hCq := (hmid (P, Cq) (by simp)).2
    have hmid' : ∀ q ∈ rest, (∀ c ∈ q.1, c ≠ '`') ∧ (∀ c ∈ q.2, c ≠ '`') :=
      fun q h => hmid q (List.mem_cons.2 (Or.inr h))
    have hshape : C ++ (mdOfMid tag ((P, Cq) :: rest) ++ '\n' :: S)
        = C ++ '\n' :: (fence ++ '\n' :: ('\n' :: (P ++ '\n' :: ('\n' ::
            ((fence ++ tag) ++ '\n' :: (Cq ++ (mdOfMid tag rest
              ++ '\n' :: S))))))) := by
      simp [mdOfMid, rOpen, rClose, eol]
    rw [hshape, fenceLines_skip_seg hC, fenceLines_close_cons,
      fenceLines_cons_nl, fenceLines_skip_seg hP, fenceLines_cons_nl,
      fenceLines_open_cons htag, ih Cq S hCq hmid']
    simp [List.replicate_succ]

/-- Interleaving: an opening marker, `n` close/open pairs and a final
closing marker form `n + 1` balanced open/close pairs. -/
theorem alt_flatten {α : Type} (x y : α) : ∀ n : ℕ,
    x :: ((List.replicate n [y, x]).flatten ++ [y])
      = (List.replicate (n + 1) [x, y]).flatten := by
  intro n
  induction n with
  | zero => simp
  | succ n ih =>
    calc x :: ((List.replicate (n + 1) [y, x]).flatten ++ [y])
        = x :: y :: (x :: ((List.replicate n [y, x]).flatten ++ [y])) := by
          simp [List.replicate_succ]
      _ = x :: y :: (List.replicate (n + 1) [x, y]).flatten := by rw [ih]
      _ = (List.replicate (n + 1 + 1) [x, y]).flatten := by
          simp [List.replicate_succ]

/-- The fence lines of the Markdown of a well-formed literate document:
one opening fence with the tag and one closing fence per code block, in
alternation. -/
theorem fenceLines_mdOfDoc {tag : List Char} (htag : ∀ c ∈ tag, c ≠ '\n')
    (lead : Option (List Char)) (c1 : List Char)
    (mid : List (List Char × List Char)) (trail : Option (List Char))
    (hlead : ∀ P, lead = some P → ∀ c ∈ P, c ≠ '`')
    (hc1 : ∀ c ∈ c1, c ≠ '`')
    (hmid : ∀ pc ∈ mid, (∀ c ∈ pc.1, c ≠ '`') ∧ (∀ c ∈ pc.2, c ≠ '`'))
    (htrail : ∀ P, trail = some P → ∀ c ∈ P, c ≠ '`') :
    fenceLines tag (mdOfDoc tag lead c1 mid trail)
      = (List.replicate (mid.length + 1)
          [openFenceLine tag, closeFenceLine]).flatten := by
  cases lead with
  | some P0 =>
    cases trail with
    | some Pt =>
      rw [show mdOfDoc tag (some P0) c1 mid (some Pt)
          = P0 ++ '\n' :: ('\n' :: ((fence ++ tag) ++ '\n' :: (c1 ++
              (mdOfMid tag mid ++ '\n' :: (fence ++ '\n' :: ('\n' :: Pt))))))
        from by simp [mdOfDoc, rClose, rOpen, eol]]
      rw [fenceLines_skip_seg (hlead P0 rfl), fenceLines_cons_nl,
        fenceLines_open_cons htag,
        fenceLines_seg_mid htag mid c1 _ hc1 hmid,
        fenceLines_close_cons, fenceLines_cons_nl,
        fenceLines_seg (htrail Pt rfl)]
      exact alt_flatten (openFenceLine tag) closeFenceLine mid.length
    | none =>
      rw [show mdOfDoc tag (some P0) c1 mid none
          = P0 ++ '\n' :: ('\n' :: ((fence ++ tag) ++ '\n' :: (c1 ++
              (mdOfMid tag mid ++ '\n' :: fence))))
        from by simp [mdOfDoc, rClose, eol]]
      rw [fenceLines_skip_seg (hlead P0 rfl), fenceLines_cons_nl,
        fenceLines_open_cons htag,
        fenceLines_seg_mid htag mid c1 _ hc1 hmid, fenceLines_closeline]
      exact alt_flatten (openFenceLine tag) closeFenceLine mid.length
  | none =>
    cases trail with
    | some Pt =>
      rw [show mdOfDoc tag none c1 mid (some Pt)
          = (fence ++ tag) ++ '\n' :: (c1 ++
              (mdOfMid tag mid ++ '\n' :: (fence ++ '\n' :: ('\n' :: Pt))))
        from by simp [mdOfDoc, rOpen, eol]]
      rw [fenceLines_open_cons htag,
        fenceLines_seg_mid htag mid c1 _ hc1 hmid,
        fenceLines_close_cons, fenceLines_cons_nl,
        fenceLines_seg (htrail Pt rfl)]
      exact alt_flatten (openFenceLine tag) closeFenceLine mid.length
    | none =>
      rw [show mdOfDoc tag none c1 mid none
          = (fence ++ tag) ++ '\n' :: (c1 ++
              (mdOfMid tag mid ++ '\n' :: fence))
        from by simp [mdOfDoc, eol]]
      rw [fenceLines_open_cons htag,
        fenceLines_seg_mid htag mid c1 _ hc1 hmid, fenceLines_closeline]
      exact alt_flatten (openFenceLine tag) closeFenceLine mid.length

/-- A segment all of whose characters are admissible and non-line-break is
admissible. -/
theorem segOk_of_forall {bad s : List Char} (h1 : s ≠ [])
    (h2 : ∀ c ∈ s, c ∉ bad ∧ c ≠ '\n' ∧ c ≠ '\r') : segOk bad s :=
  ⟨h1, fun c hc => (h2 c hc).1,
    fun c hc => (h2 c (mem_of_head?_some hc)).2,
    fun c hc => (h2 c (List.mem_of_getLast?_eq_some hc)).2⟩

theorem segOk_no_tick {op cl s : List Char}
    (h : segOk (op ++ cl ++ ['`']) s) : ∀ c ∈ s, c ≠ '`' := by
  intro c hc heq
  subst heq
  exact h.2.1 '`' hc (List.mem_append.2 (Or.inr (by simp)))

/-! ## The dollar-substituted close replacement agrees with the literal one
for dollar-free tags -/

theorem map_findSome? {α β γ : Type} (g : β → γ) (f : α → Option β) :
    ∀ l : List α, (l.findSome? f).map g
      = l.findSome? fun x => (f x).map g := by
  intro l
  induction l with
  | nil => rfl
  | cons a t ih =>
    rw [List.findSome?_cons, List.findSome?_cons]
    cases h : f a with
    | some b => simp [h]
    | none => simp [h, ih]

/-- `matchMidFull` performs the same search as `matchMid`; the extra
components are only the capture-group values. -/
theorem matchMidFull_proj (d s : List Char) :
    (matchMidFull d s).map (fun q => q.2.2) = matchMid d s := by
  unfold matchMidFull matchMid
  rw [map_findSome?]
  congr 1
  funext s1
  by_cases h1 : d.isPrefixOf s1
  · by_cases h2 : (nlTok (s1.drop d.length)).isSome
    · simp [h1, h2]
    · simp [h1, h2]
  · simp [h1]

theorem getSub_nil {matched pre post g1 g2 : List Char} :
    getSub matched pre post g1 g2 [] = [] := rfl

theorem getSub_cons_ne {matched pre post g1 g2 : List Char} {c : Char}
    {rest : List Char} (hc : c ≠ '$') :
    getSub matched pre post g1 g2 (c :: rest)
      = c :: getSub matched pre post g1 g2 rest := by
  show (if c = '$' then
      (getSubD matched pre post g1 g2 rest).1
        ++ getSubF matched pre post g1 g2 rest.length
          (getSubD matched pre post g1 g2 rest).2
    else c :: getSubF matched pre post g1 g2 rest.length rest)
    = c :: getSub matched pre post g1 g2 rest
  rw [if_neg hc]
  rfl

/-- Dollar substitution on a dollar-free template is the identity. -/
theorem getSub_literal {matched pre post g1 g2 : List Char} :
    ∀ tpl : List Char, (∀ c ∈ tpl, c ≠ '$') →
      getSub matched pre post g1 g2 tpl = tpl := by
  intro tpl
  induction tpl with
  | nil =>
    intro _
    exact getSub_nil
  | cons c rest ih =>
    intro h
    rw [getSub_cons_ne (h c (by simp)),
      ih (fun d hd => h d (List.mem_cons.2 (Or.inr hd)))]

/-- For a dollar-free tag the full-semantics close substitution scan is the
literal one. -/
theorem closeSubstFullF_eq {cl tag : List Char}
    (htag : ∀ c ∈ tag, c ≠ '$') :
    ∀ (fuel : ℕ) (pre s : List Char),
      closeSubstFullF cl tag fuel pre s
        = replAllF (matchMid cl) (eol ++ eol ++ fence ++ tag ++ eol) fuel s := by
  have heol : ∀ c ∈ (eol : List Char), c ≠ '$' := by
    intro c hc
    rw [show (eol : List Char) = ['\n'] from rfl] at hc
    simp at hc
    rw [hc]
    decide
  have hfen : ∀ c ∈ (fence : List Char), c ≠ '$' := by
    intro c hc
    rw [mem_fence hc]
    decide
  have htpl : ∀ c ∈ eol ++ eol ++ fence ++ tag ++ eol, c ≠ '$' := by
    intro c hc
    rcases List.mem_append.1 hc with hc | hc
    · rcases List.mem_append.1 hc with hc | hc
      · rcases List.mem_append.1 hc with hc | hc
        · rcases List.mem_append.1 hc with hc | hc
          · exact heol c hc
          · exact heol c hc
        · exact hfen c hc
      · exact htag c hc
    · exact heol c hc
  intro fuel
  induction fuel with
  | zero =>
    intro pre s
    cases s with
    | nil => rfl
    | cons c t => rfl
  | succ n ih =>
    intro pre s
    cases s with
    | nil => rfl
    | cons c t =>
      cases hm : matchMidFull cl (c :: t) with
      | none =>
        have hm2 : matchMid cl (c :: t) = none := by
          rw [← matchMidFull_proj, hm]
          rfl
        unfold closeSubstFullF replAllF
        rw [hm, hm2]
        dsimp only
        rw [ih]
      | some q =>
        obtain ⟨g1, g2, res⟩ := q
        have hm2 : matchMid cl (c :: t) = some res := by
          rw [← matchMidFull_proj, hm]
          rfl
        unfold closeSubstFullF replAllF
        rw [hm, hm2]
        dsimp only
        rw [getSub_literal _ htpl, ih]

theorem closeSubstFull_eq {cl tag : List Char} (htag : '$' ∉ tag)
    (s : List Char) : closeSubstFull cl tag s = closeSubst cl tag s := by
  unfold closeSubstFull closeSubst replAll
  exact closeSubstFullF_eq (fun c hc he => htag (he ▸ hc)) s.length [] s

/-- For a dollar-free tag the fully-faithful conversion is the literal
one. -/
theorem convertTextFull_eq {op cl tag : List Char} (htag : '$' ∉ tag)
    (s : List Char) : convertTextFull op cl tag s = convertText op cl tag s := by
  unfold convertTextFull convertText
  rw [closeSubstFull_eq htag]

/-! ## Claims -/

/-- C1: For the configuration `open = "/*"`, `close = "*/"`, `lang = "c"`,
converting an input consisting of the open delimiter on its own line, the
prose line `Hello prose.`, the close delimiter on its own line, and the code
line `int x = 1;` up to EOF produces exactly `Hello prose.`, one blank line,
the opening fence line ```` ```c ````, the code line, and a closing fence
line — no fence around the leading prose, exactly one fence around the
trailing code, no extra blank lines. -/
theorem claim_c1 :
    literateConvert ⟨"/*".toList, "*/".toList, some "c".toList⟩ "foo".toList
      "/*\nHello prose.\n*/\nint x = 1;".toList
      = "Hello prose.\n\n```c\nint x = 1;\n```".toList := by decide

/-- C2 counterexample: the fence-balance invariant fails as stated.  For the
configuration `open = "/*"`, `close = "*/"`, `lang = "c"` and the input
consisting solely of `*/`, the output is the single line ```` ```c ````: one
opening fence marker and no closing fence marker. -/
theorem claim_c2_counterexample :
    ¬ ((linesOf (literateConvert ⟨"/*".toList, "*/".toList, some "c".toList⟩
          "foo".toList "*/".toList)).filter
            (fun l => isFenceLine "c".toList l)
        = List.flatten (List.replicate 1
            [openFenceLine "c".toList, closeFenceLine])
      ∨ ((linesOf (literateConvert ⟨"/*".toList, "*/".toList, some "c".toList⟩
          "foo".toList "*/".toList)).filter
            (fun l => l = openFenceLine "c".toList)).length
        = ((linesOf (literateConvert ⟨"/*".toList, "*/".toList, some "c".toList⟩
          "foo".toList "*/".toList)).filter
            (fun l => l = closeFenceLine)).length) := by decide

/-- C2 (amended): for well-formed literate documents — delimiters free of
line breaks and backticks with the close delimiter not a prefix of the open
delimiter, a tag free of line breaks and of the dollar character (the
close-substitution replacement string is subject to `String.replace`
dollar-substitution, under which a dollar-bearing tag can splice match text
into the fence line), and prose/code segments that are nonempty, contain no
character of either delimiter and no backtick, and neither start nor end
with a line-break character — the conversion (modelled with the full
dollar-substitution semantics, `convertTextFull`) produces exactly the
expected Markdown, and its fence marker lines are `mid.length + 1` balanced
opening/closing pairs in alternation: every opening fence is closed and
every code block is separated from the next by prose. -/
theorem claim_c2 {op cl tag : List Char} (hop : delimOk op)
    (hcl : delimOk cl) (hclop : ¬ cl.IsPrefix op)
    (htag : ∀ c ∈ tag, c ≠ '\n' ∧ c ≠ '\r') (hdol : '$' ∉ tag)
    (lead : Option (List Char)) (c1 : List Char)
    (mid : List (List Char × List Char)) (trail : Option (List Char))
    (hlead : ∀ P, lead = some P → segOk (op ++ cl ++ ['`']) P)
    (hc1 : segOk (op ++ cl ++ ['`']) c1)
    (hmid : ∀ pc ∈ mid, segOk (op ++ cl ++ ['`']) pc.1 ∧
      segOk (op ++ cl ++ ['`']) pc.2)
    (htrail : ∀ P, trail = some P → segOk (op ++ cl ++ ['`']) P) :
    convertTextFull op cl tag (renderDoc op cl lead c1 mid trail)
      = mdOfDoc tag lead c1 mid trail ∧
    (linesOf (convertTextFull op cl tag
        (renderDoc op cl lead c1 mid trail))).filter (isFenceLine tag)
      = (List.replicate (mid.length + 1)
          [openFenceLine tag, closeFenceLine]).flatten := by
  rw [convertTextFull_eq hdol]
  have heq : convertText op cl tag (renderDoc op cl lead c1 mid trail)
      = mdOfDoc tag lead c1 mid trail := by
    cases lead with
    | some P0 =>
      cases trail with
      | some Pt =>
        exact convert_wf_ss hop hcl hclop htag P0 c1 Pt mid
          (hlead P0 rfl) hc1 (htrail Pt rfl) hmid
      | none =>
        exact convert_wf_sn hop hcl hclop htag P0 c1 mid
          (hlead P0 rfl) hc1 hmid
    | none =>
      cases trail with
      | some Pt =>
        exact convert_wf_ns hop hcl hclop htag c1 Pt mid
          hc1 (htrail Pt rfl) hmid
      | none =>
        exact convert_wf_nn hop hcl hclop htag c1 mid hc1 hmid
  refine ⟨heq, ?_⟩
  rw [heq]
  exact fenceLines_mdOfDoc (fun c hc => (htag c hc).1) lead c1 mid trail
    (fun P hP c hc => segOk_no_tick (hlead P hP) c hc)
    (segOk_no_tick hc1)
    (fun pc hpc => ⟨segOk_no_tick (hmid pc hpc).1,
      segOk_no_tick (hmid pc hpc).2⟩)
    (fun P hP c hc => segOk_no_tick (htrail P hP) c hc)

/-- Witness for C2 on the spec's own configuration: leading prose, one code
segment, one interior prose/code pair; the fence lines of the output are
two balanced open/close pairs. -/
theorem claim_c2_witness :
    convertTextFull "/*".toList "*/".toList "c".toList
        (renderDoc "/*".toList "*/".toList (some "Hello prose.".toList)
          "int x = 1;".toList
          [("More prose.".toList, "y = 2;".toList)] none)
      = mdOfDoc "c".toList (some "Hello prose.".toList)
          "int x = 1;".toList
          [("More prose.".toList, "y = 2;".toList)] none ∧
    (linesOf (convertTextFull "/*".toList "*/".toList "c".toList
        (renderDoc "/*".toList "*/".toList (some "Hello prose.".toList)
          "int x = 1;".toList
          [("More prose.".toList, "y = 2;".toList)] none))).filter
        (isFenceLine "c".toList)
      = (List.replicate 2
          [openFenceLine "c".toList, closeFenceLine]).flatten :=
  claim_c2 ⟨by decide, by decide⟩ ⟨by decide, by decide⟩
    (by intro h; exact absurd (List.isPrefixOf_iff_prefix.2 h) (by decide))
    (by decide) (by decide)
    (some "Hello prose.".toList) "int x = 1;".toList
    [("More prose.".toList, "y = 2;".toList)] none
    (by
      intro P hP
      injection hP with h
      subst h
      exact segOk_of_forall (by decide) (by decide))
    (segOk_of_forall (by decide) (by decide))
    (by
      intro pc hpc
      rcases List.mem_cons.1 hpc with rfl | h
      · exact ⟨segOk_of_forall (by decide) (by decide),
          segOk_of_forall (by decide) (by decide)⟩
      · exact absurd h (List.not_mem_nil pc))
    (fun P hP => Option.noConfusion hP)

/-- C3 counterexample: the claimed language-tag rule fails when `lang` is
present but empty.  JavaScript `||` then falls through to the extension: the
code emits ```` ```foo ```` where the claim, read literally, requires the
present (empty) `config.lang`, hence a bare ```` ``` ````. -/
theorem claim_c3_counterexample :
    literateConvert ⟨"/*".toList, "*/".toList, some []⟩ "foo".toList
        "int x = 1;".toList
      ≠ specWrapOfC3 ⟨"/*".toList, "*/".toList, some []⟩ "foo".toList
        "int x = 1;".toList := by decide

/-- C3 (amended): for every configuration and every input in which neither
the open nor the close delimiter occurs, provided the effective language tag
(`config.lang` when present and nonempty, else the extension) contains no
line break, the output is exactly the input wrapped in one opening fence
carrying the effective tag and one closing fence. -/
theorem claim_c3 (lc : LangConfig) (extKey I : List Char)
    (hop : ¬ lc.«open» <:+: I) (hcl : ¬ lc.close <:+: I)
    (htag : '\n' ∉ effLang lc extKey) :
    literateConvert lc extKey I
      = fence ++ effLang lc extKey ++ eol ++ I ++ eol ++ fence :=
  convertText_no_delims hop hcl htag

/-- C3 witness: the amended statement applied to the concrete `.foo`
configuration and the delimiter-free input `int x = 1;`. -/
theorem claim_c3_witness :
    literateConvert ⟨"/*".toList, "*/".toList, some "c".toList⟩ "foo".toList
        "int x = 1;".toList
      = fence ++ "c".toList ++ eol ++ "int x = 1;".toList ++ eol ++ fence :=
  claim_c3 ⟨"/*".toList, "*/".toList, some "c".toList⟩ "foo".toList
    "int x = 1;".toList (by decide) (by decide) (by decide)

/-- C4: a file whose extension has no entry in the configuration table is
skipped entirely: the converter performs no filesystem effect at all — no
directory creation, no read, no write, no log — and, being total, raises no
error. -/
theorem claim_c4 (config : List Char → Option LangConfig)
    (contents : List Char) (input output : List String)
    (h : config (extKeyOf (output.getLast?.getD "")) = none) :
    literateToMdFile config contents input output = [] := by
  simp only [literateToMdFile, h]

/-- C4 witness: a configuration table containing only `foo`, applied to a
`.bar` file. -/
theorem claim_c4_witness :
    literateToMdFile
      (fun k => if k = "foo".toList
        then some ⟨"/*".toList, "*/".toList, some "c".toList⟩ else none)
      "int x = 1;".toList ["src", "a.bar"] ["md", "a.bar"] = [] :=
  claim_c4 _ _ _ _ (by decide)

/-- C5 counterexample: the aggregate does not collect and report every
per-file error.  `Promise.all` rejects with a single reason: with two failing
children the reported error list is not the list of both errors. -/
theorem claim_c5_counterexample :
    reportedErrors (promiseAll [Except.error "boom1", Except.error "boom2"])
      ≠ ["boom1", "boom2"] := by decide

/-- C5 (amended): the aggregate fails exactly when some child fails — it
succeeds if and only if every child succeeds — but it reports only a single
child's error (the first), not the whole collection. -/
theorem claim_c5 (rs : List (Except String Unit)) :
    (promiseAll rs = .ok () ↔ ∀ r ∈ rs, r = .ok ()) ∧
    (∀ e, promiseAll rs = .error e →
      Except.error e ∈ rs ∧ reportedErrors (promiseAll rs) = [e]) := by
  constructor
  · constructor
    · intro h r hr
      unfold promiseAll at h
      cases hfind : rs.findSome? (fun r => match r with
        | .error e => some e
        | .ok _ => none) with
      | some e => rw [hfind] at h; cases h
      | none =>
        have hnone := List.findSome?_eq_none_iff.1 hfind r hr
        cases r with
        | error e => simp at hnone
        | ok u => cases u; rfl
    · intro h
      unfold promiseAll
      cases hfind : rs.findSome? (fun r => match r with
        | .error e => some e
        | .ok _ => none) with
      | none => rfl
      | some e =>
        obtain ⟨a, ha, hae⟩ := List.exists_of_findSome?_eq_some hfind
        rw [h a ha] at hae
        cases hae
  · intro e he
    refine ⟨?_, by rw [he]; rfl⟩
    unfold promiseAll at he
    cases hfind : rs.findSome? (fun r => match r with
      | .error e => some e
      | .ok _ => none) with
    | none => rw [hfind] at he; cases he
    | some e2 =>
      rw [hfind] at he
      have hee : e2 = e := by injection he
      subst hee
      obtain ⟨a, ha, hae⟩ := List.exists_of_findSome?_eq_some hfind
      cases a with
      | error e3 =>
        have h3 : e3 = e2 := by simpa using hae
        subst h3
        exact ha
      | ok u => simp at hae

/-- C5 witness: the amended statement applied to one succeeding and one
failing child. -/
theorem claim_c5_witness :
    Except.error "boom" ∈ ([Except.ok (), Except.error "boom"] :
        List (Except String Unit))
      ∧ reportedErrors (promiseAll [Except.ok (), Except.error "boom"])
        = ["boom"] :=
  (claim_c5 [Except.ok (), Except.error "boom"]).2 "boom" (by rfl)

/-- C6: escaping makes delimiter matching verbatim.  For every delimiter
string — including ones containing backslash, `^`, `$`, `*`, `+`, `?`, `.`,
parentheses, `|`, brackets and braces — the pattern built by `escape`
denotes, as a regular expression, exactly the literal character sequence of
the delimiter: a position in the input is a delimiter occurrence exactly
when the literal string occurs there. -/
theorem escape_cons (c : Char) (t : List Char) :
    escape (c :: t)
      = if c ∈ specials then '\\' :: c :: escape t else c :: escape t := rfl

theorem claim_c6 : ∀ (d : List Char), litInterp (escape d) = some d := by
  intro d
  induction d with
  | nil => rfl
  | cons c t ih =>
    by_cases h : c ∈ specials
    · rw [escape_cons, if_pos h]
      show (if c ∈ specials then (litInterp (escape t)).map (c :: ·)
        else none) = some (c :: t)
      rw [if_pos h, ih]
      rfl
    · rw [escape_cons, if_neg h]
      have hc : c ≠ '\\' := fun hcc => h (hcc ▸ (by decide))
      unfold litInterp
      split
      · rename_i heq; exact absurd heq (by simp)
      · rename_i heq
        injection heq with h1 _
        exact absurd h1 hc
      · rename_i heq
        injection heq with h1 h2
        subst h1
        rw [if_neg h, ← h2, ih]
        rfl

/-- C7: delimiter recognition is line-break-variant agnostic.  All three
recognizers accept any nonempty run of `\r\n`/`\n` tokens in the line-break
positions around a delimiter — so replacing a line break adjacent to a
delimiter by the other variant never changes whether the interior
substitution, the leading strip, or the trailing strip fires. -/
theorem claim_c7 (d u v post : List Char)
    (hu : isNlRun u = true) (hune : u ≠ [])
    (hv : isNlRun v = true) (hvne : v ≠ []) :
    (matchMid d (u ++ (d ++ (v ++ post)))).isSome = true ∧
    (matchStart d (u ++ (d ++ (v ++ post)))).isSome = true ∧
    (matchStart d (d ++ (v ++ post))).isSome = true ∧
    endMatchHere d (u ++ (d ++ v)) = true := by
  have hbody := matcher_body_fire d (v ++ post)
    (nlTok_isSome_run_append hv hvne post)
  refine ⟨?_, ?_, ?_, ?_⟩
  · have hmem : d ++ (v ++ post) ∈ nlRunSuffixes (u ++ (d ++ (v ++ post))) :=
      mem_nlRunSuffixes_append u hu hune _
    exact findSome?_isSome_of_mem (List.mem_reverse.2 hmem) hbody
  · have hmem : d ++ (v ++ post) ∈ nlRunSuffixes (u ++ (d ++ (v ++ post))) :=
      mem_nlRunSuffixes_append u hu hune _
    exact findSome?_isSome_of_mem
      (List.mem_reverse.2 (List.mem_cons.2 (Or.inr hmem))) hbody
  · exact findSome?_isSome_of_mem
      (List.mem_reverse.2 (List.mem_cons.2 (Or.inl rfl))) hbody
  · apply List.any_eq_true.2
    refine ⟨d ++ v, mem_nlRunSuffixes_append u hu hune _, ?_⟩
    rw [Bool.and_eq_true]
    constructor
    · exact List.isPrefixOf_iff_prefix.2 (List.prefix_append d v)
    · rw [List.drop_left]
      exact hv

/-- C7 witness: the recognizers fire with a `"\r\n"` run before and a
`"\n"` run after the delimiter. -/
theorem claim_c7_witness :
    (matchMid "*/".toList
      ("\r\n".toList ++ ("*/".toList ++ ("\n".toList ++ "x".toList)))).isSome
        = true ∧
    (matchStart "*/".toList
      ("\r\n".toList ++ ("*/".toList ++ ("\n".toList ++ "x".toList)))).isSome
        = true ∧
    (matchStart "*/".toList
      ("*/".toList ++ ("\n".toList ++ "x".toList))).isSome = true ∧
    endMatchHere "*/".toList ("\r\n".toList ++ ("*/".toList ++ "\n".toList))
      = true :=
  claim_c7 "*/".toList "\r\n".toList "\n".toList "x".toList
    (by decide) (by decide) (by decide) (by decide)

/-- C8: the conversion is deterministic — in this embedding the whole
per-file text transformation is a pure function of the configuration,
extension and input text, so two runs on the same input yield byte-identical
output. -/
theorem claim_c8 : ∀ (lc : LangConfig) (extKey s : List Char),
    literateConvert lc extKey s = literateConvert lc extKey s :=
  fun _ _ _ => rfl

/-- C9: the filesystem frame of a run.  Every effect of the walk is a read
of an input-tree file at its relative path under the input root, a directory
creation of the parent of a mirrored output path, a write of a `.md`-named
file at the mirrored relative position under the output root (the input
file's name with its extension replaced by `.md`), or a progress log; in
particular no input file is ever written and nothing outside the mirrored
output tree is created or modified. -/
theorem claim_c9 (config : List Char → Option LangConfig) :
    ∀ (t : FsTree) (input output : List String) (e : Eff),
      e ∈ literateToMd config t input output →
      (∀ p, e = Eff.read p →
        ∃ rel, hasFile t rel = true ∧ p = input ++ rel) ∧
      (∀ p, e = Eff.mkdir p →
        ∃ rel, hasFile t rel = true ∧ p = (output ++ rel).dropLast) ∧
      (∀ p c, e = Eff.write p c →
        ∃ rel nm, hasFile t rel = true ∧
          p = (output ++ rel).dropLast ++ [nm ++ ".md"] ∧
          p = (output ++ rel).dropLast
            ++ [mdName ((output ++ rel).getLast?.getD "")]) := by
  intro t
  induction t with
  | file c =>
    intro input output e he
    have he2 : e ∈ literateToMdFile config c input output := he
    clear he
    revert he2
    cases hcfg : config (extKeyOf (output.getLast?.getD "")) with
    | none =>
      intro he
      rw [show literateToMdFile config c input output = [] from by
        simp only [literateToMdFile, hcfg]] at he
      simp at he
    | some lc =>
      intro he
      rw [show literateToMdFile config c input output
          = [Eff.mkdir output.dropLast, Eff.read input,
             Eff.write (output.dropLast ++ [mdName (output.getLast?.getD "")])
               (literateConvert lc (extKeyOf (output.getLast?.getD "")) c),
             Eff.log input
               (output.dropLast ++ [mdName (output.getLast?.getD "")])]
        from by simp only [literateToMdFile, hcfg]] at he
      simp only [List.mem_cons, List.not_mem_nil, or_false] at he
      refine ⟨?_, ?_, ?_⟩
      · intro p hp
        subst hp
        rcases he with h | h | h | h
        · cases h
        · injection h with h1
          exact ⟨[], rfl, by rw [h1, List.append_nil]⟩
        · cases h
        · cases h
      · intro p hp
        subst hp
        rcases he with h | h | h | h
        · injection h with h1
          exact ⟨[], rfl, by rw [h1, List.append_nil]⟩
        · cases h
        · cases h
        · cases h
      · intro p c' hp
        subst hp
        rcases he with h | h | h | h
        · cases h
        · cases h
        · injection h with h1 h2
          refine ⟨[], String.mk (parseNameExt (output.getLast?.getD "")).1,
            rfl, ?_, ?_⟩
          · rw [h1, List.append_nil]
            rfl
          · rw [h1, List.append_nil]
        · cases h
  | dnil =>
    intro input output e he
    simp [literateToMd] at he
  | dcons n child rest ihc ihr =>
    intro input output e he
    rw [show literateToMd config (.dcons n child rest) input output
        = literateToMd config child (input ++ [n]) (output ++ [n])
          ++ literateToMd config rest input output from rfl] at he
    rcases List.mem_append.1 he with hmem | hmem
    · obtain ⟨hr, hm, hw⟩ := ihc (input ++ [n]) (output ++ [n]) e hmem
      refine ⟨?_, ?_, ?_⟩
      · intro p hp
        obtain ⟨rel, hrel, hpath⟩ := hr p hp
        refine ⟨n :: rel, ?_, ?_⟩
        · show ((n == n && hasFile child rel) || hasFile rest (n :: rel)) = true
          simp [hrel]
        · rw [hpath]; simp
      · intro p hp
        obtain ⟨rel, hrel, hpath⟩ := hm p hp
        refine ⟨n :: rel, ?_, ?_⟩
        · show ((n == n && hasFile child rel) || hasFile rest (n :: rel)) = true
          simp [hrel]
        · rw [hpath]; simp
      · intro p c' hp
        obtain ⟨rel, nm, hrel, hpath1, hpath2⟩ := hw p c' hp
        refine ⟨n :: rel, nm, ?_, ?_, ?_⟩
        · show ((n == n && hasFile child rel) || hasFile rest (n :: rel)) = true
          simp [hrel]
        · rw [hpath1]; simp
        · rw [hpath2]; simp
    · obtain ⟨hr, hm, hw⟩ := ihr input output e hmem
      refine ⟨?_, ?_, ?_⟩
      · intro p hp
        obtain ⟨rel, hrel, hpath⟩ := hr p hp
        refine ⟨rel, ?_, hpath⟩
        cases rel with
        | nil => exact hrel
        | cons m pr =>
          show ((n == m && hasFile child pr) || hasFile rest (m :: pr)) = true
          simp [hrel]
      · intro p hp
        obtain ⟨rel, hrel, hpath⟩ := hm p hp
        refine ⟨rel, ?_, hpath⟩
        cases rel with
        | nil => exact hrel
        | cons m pr =>
          show ((n == m && hasFile child pr) || hasFile rest (m :: pr)) = true
          simp [hrel]
      · intro p c' hp
        obtain ⟨rel, nm, hrel, hpath1, hpath2⟩ := hw p c' hp
        refine ⟨rel, nm, ?_, hpath1, hpath2⟩
        cases rel with
        | nil => exact hrel
        | cons m pr =>
          show ((n == m && hasFile child pr) || hasFile rest (m :: pr)) = true
          simp [hrel]

/-- C9 witness: the frame statement applied to a one-file tree, for its read
effect. -/
theorem claim_c9_witness :
    ∃ rel, hasFile (FsTree.dcons "a.foo" (FsTree.file "int x = 1;".toList)
        FsTree.dnil) rel = true
      ∧ ["src", "a.foo"] = ["src"] ++ rel :=
  (claim_c9
    (fun k => if k = "foo".toList
      then some ⟨"/*".toList, "*/".toList, some "c".toList⟩ else none)
    (FsTree.dcons "a.foo" (FsTree.file "int x = 1;".toList) FsTree.dnil)
    ["src"] ["md"] (Eff.read ["src", "a.foo"]) (by decide)).1
    ["src", "a.foo"] rfl

/-- C10 counterexample: a file consisting solely of the close delimiter is
not wrapped in fences.  The prepended opening fence introduces a line break
before `*/`, the trailing-strip regex then fires, and the output is the
single unclosed fence line ```` ```c ````. -/
theorem claim_c10_counterexample :
    literateConvert ⟨"/*".toList, "*/".toList, some "c".toList⟩ "foo".toList
      "*/".toList ≠ "```c\n*/\n```".toList := by decide

/-- C10 (amended): delimiters are recognized only adjacent to line breaks —
an interior substitution requires line breaks on both sides, the leading
strip requires a following line break, the trailing strip requires a
preceding line break (so inline occurrences are never recognized); however a
file consisting solely of the close delimiter is not wrapped in fences: the
fence prepended for a code-start document introduces a line break before the
close delimiter, the trailing strip then fires, and the output is just the
opening fence line. -/
theorem claim_c10 :
    (∀ (d s res : List Char), matchMid d s = some res →
      ∃ u w, s = u ++ d ++ w ∧ isNlRun u = true ∧ u ≠ [] ∧
        (nlTok w).isSome) ∧
    (∀ (d s res : List Char), matchStart d s = some res →
      ∃ u w, s = u ++ d ++ w ∧ isNlRun u = true ∧ (nlTok w).isSome) ∧
    (∀ (d s : List Char), endMatchHere d s = true →
      ∃ u w, s = u ++ d ++ w ∧ isNlRun u = true ∧ u ≠ [] ∧
        isNlRun w = true) ∧
    literateConvert ⟨"/*".toList, "*/".toList, some "c".toList⟩ "foo".toList
      "*/".toList = "```c".toList := by
  refine ⟨?_, ?_, ?_, by decide⟩
  · intro d s res h
    obtain ⟨u, w, h1, h2, h3, h4, -⟩ := matchMid_inversion h
    exact ⟨u, w, h1, h2, h3, h4⟩
  · intro d s res h
    obtain ⟨u, w, h1, h2, h3, -⟩ := matchStart_inversion h
    exact ⟨u, w, h1, h2, h3⟩
  · intro d s h
    exact endMatchHere_inversion h

/-- C10 witness: the interior-substitution necessity applied to the concrete
text `"\n*/\n"`, where `matchMid` succeeds. -/
theorem claim_c10_witness :
    ∃ u w, "\n*/\n".toList = u ++ "*/".toList ++ w ∧ isNlRun u = true ∧
      u ≠ [] ∧ (nlTok w).isSome :=
  claim_c10.1 "*/".toList "\n*/\n".toList [] (by decide)

end LiterateToMd
